import Mathlib

/-!
Verification of the plexmon core against its specification.

This development gives a shallow embedding, in Lean 4, of the core data
structures and operations of the `plexmon` daemon:

* the pending-scan scheduler of `src/events.c` (coalescing table of
  debounced scan requests),
* the directory cache of `src/dircache.c` (per-directory mtime and
  subdirectory set),
* the watch registry of `src/monitor.c` (slot array with free list and a
  path hash index),
* the `scan_interval` handling of `src/config.c` and `src/main.c`.

Paths are modelled as lists of characters (C strings without their
terminating NUL).  Timestamps (`time_t`) and C `int` values are modelled
as `Int`.  Interactions with the operating system (`stat`, `open`,
`readdir`, `kevent`, allocation) are modelled by explicit parameters
carrying the result the corresponding call would return.
-/

namespace Plexmon

/-! ## Pending-scan scheduler: `src/events.c` -/

/-- `MAX_EVENT_FDS` from `plexmon.h`: capacity of the pending-scan table. -/
def MAX_EVENT_FDS : Nat := 2048

/-- One entry of the pending-scan table (`pending_scan_t` in `events.c`).
The C array field `scheduled_scan_time` is called `scheduled_time` here,
following the struct of `events.h`. -/
structure PendingScan where
  path : List Char
  sectionId : Int
  firstEventTime : Int
  scheduledTime : Int
  isPending : Bool
deriving DecidableEq

/-- Strict-ancestor test on slash-separated paths, as performed by
`find_parent_pending_scan` and `find_child_pending_scans`:
`p` is strictly shorter than `q`, `p` is a prefix of `q`, and the next
character of `q` is a slash.  (The C code also accepts `'\0'` at that
position, but since the compared index is strictly below `strlen(q)` the
character there is never the terminator, so that disjunct is dead.) -/
def isAncestor (p q : List Char) : Bool :=
  decide (p.length < q.length) && decide (q.take p.length = p) &&
    decide (q.get? p.length = some '/')

/-- Index of the first entry satisfying a predicate, mirroring the C
  `for` loops over `pending_scans[0..num_pending_scans)`. -/
def scanFindIdx (p : PendingScan → Bool) : List PendingScan → Option Nat
  | [] => none
  | e :: rest => if p e then some 0 else (scanFindIdx p rest).map (· + 1)

/-- `find_pending_scan`: first live entry whose path equals `path`. -/
def find_pending_scan (scans : List PendingScan) (path : List Char) : Option Nat :=
  scanFindIdx (fun e => e.isPending && decide (e.path = path)) scans

/-- `find_parent_pending_scan`: first live entry whose path is a strict
ancestor of `path`. -/
def find_parent_pending_scan (scans : List PendingScan) (path : List Char) : Option Nat :=
  scanFindIdx (fun e => e.isPending && isAncestor e.path path) scans

/-- Predicate used by `find_child_pending_scans` at index `i`. -/
def childPred (scans : List PendingScan) (path : List Char) (i : Nat) : Bool :=
  match scans.get? i with
  | some e => e.isPending && isAncestor path e.path
  | none => false

/-- `find_child_pending_scans`: indices of the live entries whose path is a
strict descendant of `path`, in slot order, at most `MAX_EVENT_FDS` of
them (the C caller passes `max_children = MAX_EVENT_FDS`). -/
def find_child_pending_scans (scans : List PendingScan) (path : List Char) : List Nat :=
  ((List.range scans.length).filter (childPred scans path)).take MAX_EVENT_FDS

/-- Overwrite the `scheduled_scan_time` of entry `i`. -/
def setScheduled (scans : List PendingScan) (i : Nat) (t : Int) : List PendingScan :=
  match scans.get? i with
  | some e => scans.set i { e with scheduledTime := t }
  | none => scans

/-- A freshly initialized pending scan: the assignments
`path/section_id/first_event_time/scheduled_scan_time/is_pending` of
`events_handle`. -/
def mkScan (path : List Char) (sid : Int) (now debounce : Int) : PendingScan :=
  { path := path, sectionId := sid, firstEventTime := now,
    scheduledTime := now + debounce, isPending := true }

/-- One step of the child-consolidation loop of `events_handle`: mark the
entry at index `j` as not pending unless `j` is the reused slot. -/
def killStep (keep : Nat) (s : List PendingScan) (j : Nat) : List PendingScan :=
  if j = keep then s else
    match s.get? j with
    | some e => s.set j { e with isPending := false }
    | none => s

/-- Mark every child index except the reused one as not pending. -/
def killChildren (scans : List PendingScan) (children : List Nat) (keep : Nat) :
    List PendingScan :=
  children.foldl (killStep keep) scans

/-- The table-full replacement policy of `events_handle`: index of the live
entry with the smallest `scheduled_scan_time`, starting from `idx = 0` and
`oldest_time = now + 86400`. -/
def find_oldest (scans : List PendingScan) (now : Int) : Nat :=
  (scans.foldl (fun (acc : Nat × Int × Nat) e =>
    let (idx, oldest, i) := acc
    if e.isPending && decide (e.scheduledTime < oldest)
    then (i, e.scheduledTime, i + 1) else (idx, oldest, i + 1))
    (0, now + 86400, 0)).1

/-- `events_handle(path, section_id)` from `events.c`.  `now` is the value
of `time(NULL)` and `debounce` the value of `g_config.scan_interval` at
the time of the call.  The table is the prefix
`pending_scans[0..num_pending_scans)` of the C array.  The `strncpy`
truncation of stored paths to `PATH_MAX_LEN - 1` bytes is not modelled:
every caller passes paths held in `PATH_MAX_LEN` buffers, so the copy
never truncates. -/
def events_handle (now debounce : Int) (path : List Char) (sid : Int)
    (scans : List PendingScan) : List PendingScan :=
  match find_parent_pending_scan scans path with
  | some i => setScheduled scans i (now + debounce)
  | none =>
    match find_pending_scan scans path with
    | some i => setScheduled scans i (now + debounce)
    | none =>
      let children := find_child_pending_scans scans path
      if children = [] then
        if MAX_EVENT_FDS ≤ scans.length then
          scans.set (find_oldest scans now) (mkScan path sid now debounce)
        else
          scans ++ [mkScan path sid now debounce]
      else
        if MAX_EVENT_FDS ≤ scans.length then
          let idx := children.headD 0
          killChildren (scans.set idx (mkScan path sid now debounce)) children idx
        else
          killChildren (scans ++ [mkScan path sid now debounce]) children scans.length

/-- `events_process_pending` (named `events_pending` in `events.h`): every
live entry whose deadline has passed is issued to the Plex client (an
external effect, not modelled) and marked not pending; if any scan was
executed, `cleanup_completed_scans` compacts the array, keeping the live
entries in order. -/
def events_pending (now : Int) (scans : List PendingScan) : List PendingScan :=
  let marked := scans.map fun e =>
    if e.isPending && decide (e.scheduledTime ≤ now) then { e with isPending := false } else e
  if scans.any (fun e => e.isPending && decide (e.scheduledTime ≤ now)) then
    marked.filter (·.isPending)
  else marked

/-- One iteration of the `next_scheduled_scan` loop: consider entry `e`
when it is live and its deadline is strictly in the future, and keep the
smaller deadline (`next_time = 0` meaning "none seen yet"). -/
def schedStep (now next_time : Int) (e : PendingScan) : Int :=
  if e.isPending && decide (now < e.scheduledTime) then
    if next_time = 0 ∨ e.scheduledTime < next_time then e.scheduledTime else next_time
  else next_time

/-- `next_scheduled_scan` (named `events_schedule` in `events.h`): fold of
the C loop.  Note the guard `scheduled_scan_time > now`: entries that are
already due are not considered. -/
def next_scheduled_scan (now : Int) (scans : List PendingScan) : Int :=
  scans.foldl (schedStep now) 0

/-- States of the pending-scan table reachable from the initial empty table
(`events_init`) by `events_handle` and `events_pending` calls. -/
inductive Reachable : List PendingScan → Prop
  | init : Reachable []
  | handle (now debounce : Int) (path : List Char) (sid : Int) {s : List PendingScan} :
      Reachable s → Reachable (events_handle now debounce path sid s)
  | pending (now : Int) {s : List PendingScan} :
      Reachable s → Reachable (events_pending now s)

/-- Ancestor-dominance: no live entry's path is a strict ancestor of
another live entry's path.  (Taking the two entries equal is harmless
because `isAncestor` is irreflexive.) -/
def NoDominance (scans : List PendingScan) : Prop :=
  ∀ e1 ∈ scans, ∀ e2 ∈ scans, e1.isPending = true → e2.isPending = true →
    isAncestor e1.path e2.path = false

/-! ### Lemmas about the scheduler operations -/

theorem isAncestor_irrefl (p : List Char) : isAncestor p p = false := by
  simp [isAncestor]

theorem bool_ne_false {b : Bool} (h : ¬b = false) : b = true := by
  cases b
  · exact absurd rfl h
  · rfl

theorem scanFindIdx_eq_none {p : PendingScan → Bool} {l : List PendingScan}
    (h : scanFindIdx p l = none) : ∀ e ∈ l, p e = false := by
  induction l with
  | nil => intro e he; cases he
  | cons a rest ih =>
    intro e he
    rw [scanFindIdx] at h
    by_cases hpa : p a = true
    · simp [hpa] at h
    · rcases List.mem_cons.mp he with he | he
      · subst he; simpa using hpa
      · refine ih ?_ e he
        rcases hr : scanFindIdx p rest with _ | v
        · rfl
        · rw [hr] at h; simp [hpa] at h

theorem setScheduled_length (s : List PendingScan) (i : Nat) (t : Int) :
    (setScheduled s i t).length = s.length := by
  unfold setScheduled
  cases s.get? i <;> simp

theorem setScheduled_liveMap (s : List PendingScan) (i : Nat) (t : Int) :
    ∀ e ∈ setScheduled s i t, e.isPending = true →
      ∃ e' ∈ s, e'.isPending = true ∧ e'.path = e.path := by
  intro e he hp
  unfold setScheduled at he
  cases hg : s.get? i with
  | none => rw [hg] at he; exact ⟨e, he, hp, rfl⟩
  | some e0 =>
    rw [hg] at he
    rcases List.mem_or_eq_of_mem_set he with h | h
    · exact ⟨e, h, hp, rfl⟩
    · subst h; exact ⟨e0, List.get?_mem hg, hp, rfl⟩

theorem noDominance_of_liveMap {s t : List PendingScan}
    (hmap : ∀ e ∈ t, e.isPending = true → ∃ e' ∈ s, e'.isPending = true ∧ e'.path = e.path)
    (hnd : NoDominance s) : NoDominance t := by
  intro e1 h1 e2 h2 hp1 hp2
  obtain ⟨f1, hf1, hfp1, hpath1⟩ := hmap e1 h1 hp1
  obtain ⟨f2, hf2, hfp2, hpath2⟩ := hmap e2 h2 hp2
  rw [← hpath1, ← hpath2]
  exact hnd f1 hf1 f2 hf2 hfp1 hfp2

theorem noDominance_insert {s t : List PendingScan} {P : List Char}
    (hnd : NoDominance s)
    (hup : ∀ e ∈ s, e.isPending = true → isAncestor e.path P = false)
    (hmap : ∀ e ∈ t, e.isPending = true →
      e.path = P ∨ ∃ e' ∈ s, e'.isPending = true ∧ e'.path = e.path ∧
        isAncestor P e.path = false) :
    NoDominance t := by
  intro e1 h1 e2 h2 hp1 hp2
  rcases hmap e1 h1 hp1 with hP1 | ⟨f1, hf1, hfp1, hpath1, hanc1⟩
  · rcases hmap e2 h2 hp2 with hP2 | ⟨f2, hf2, hfp2, hpath2, hanc2⟩
    · rw [hP1, hP2]; exact isAncestor_irrefl P
    · rw [hP1]; exact hanc2
  · rcases hmap e2 h2 hp2 with hP2 | ⟨f2, hf2, hfp2, hpath2, hanc2⟩
    · rw [hP2, ← hpath1]; exact hup f1 hf1 hfp1
    · rw [← hpath1, ← hpath2]; exact hnd f1 hf1 f2 hf2 hfp1 hfp2

theorem killStep_length (keep : Nat) (s : List PendingScan) (j : Nat) :
    (killStep keep s j).length = s.length := by
  unfold killStep
  by_cases h : j = keep
  · simp [h]
  · simp only [if_neg h]
    cases s.get? j <;> simp

theorem killStep_get?_of_ne (keep : Nat) (s : List PendingScan) {j i : Nat}
    (h : j ≠ i) : (killStep keep s j).get? i = s.get? i := by
  unfold killStep
  by_cases hk : j = keep
  · simp [hk]
  · simp only [if_neg hk]
    cases s.get? j with
    | none => rfl
    | some e => exact List.get?_set_ne _ _ h

theorem killStep_get?_keep (s : List PendingScan) (j : Nat) :
    (killStep j s j).get? j = s.get? j := by
  unfold killStep; simp

theorem killStep_get?_hit (keep : Nat) (s : List PendingScan) {j : Nat}
    (h : j ≠ keep) :
    (killStep keep s j).get? j = (s.get? j).map (fun e => { e with isPending := false }) := by
  unfold killStep
  simp only [if_neg h]
  cases hg : s.get? j with
  | none => rw [hg]; rfl
  | some e =>
    rw [List.get?_set_eq, hg]; rfl

theorem killChildren_length (children : List Nat) (s : List PendingScan) (keep : Nat) :
    (killChildren s children keep).length = s.length := by
  induction children generalizing s with
  | nil => rfl
  | cons c rest ih =>
    show (killChildren (killStep keep s c) rest keep).length = s.length
    rw [ih, killStep_length]

theorem killChildren_get?_not_mem (children : List Nat) (s : List PendingScan)
    (keep j : Nat) (hj : j ∉ children ∨ j = keep) :
    (killChildren s children keep).get? j = s.get? j := by
  induction children generalizing s with
  | nil => rfl
  | cons c rest ih =>
    show (killChildren (killStep keep s c) rest keep).get? j = s.get? j
    have hrest : j ∉ rest ∨ j = keep := by
      rcases hj with hj | hj
      · exact Or.inl fun h => hj (List.mem_cons_of_mem _ h)
      · exact Or.inr hj
    rw [ih _ hrest]
    rcases hj with hj | hj
    · exact killStep_get?_of_ne keep s fun h => hj (h ▸ List.mem_cons_self _ _)
    · by_cases hcj : c = j
      · subst hcj; subst hj; exact killStep_get?_keep s c
      · exact killStep_get?_of_ne keep s hcj

theorem killChildren_get?_mem (children : List Nat) (s : List PendingScan)
    (keep j : Nat) (hm : j ∈ children) (hne : j ≠ keep) :
    (killChildren s children keep).get? j =
      (s.get? j).map (fun e => { e with isPending := false }) := by
  induction children generalizing s with
  | nil => cases hm
  | cons c rest ih =>
    show (killChildren (killStep keep s c) rest keep).get? j = _
    by_cases hr : j ∈ rest
    · rw [ih _ hr]
      by_cases hcj : c = j
      · subst hcj
        rw [killStep_get?_hit keep s hne]
        cases s.get? c <;> rfl
      · rw [killStep_get?_of_ne keep s hcj]
    · have hcj : c = j := by
        rcases List.mem_cons.mp hm with h | h
        · exact h.symm
        · exact absurd h hr
      subst hcj
      rw [killChildren_get?_not_mem rest _ keep c (Or.inl hr),
        killStep_get?_hit keep s hne]

theorem mem_children_iff {s : List PendingScan} {path : List Char}
    (hlen : s.length ≤ MAX_EVENT_FDS) (j : Nat) :
    j ∈ find_child_pending_scans s path ↔ childPred s path j = true := by
  unfold find_child_pending_scans
  rw [List.take_of_length_le
    (le_trans (List.length_filter_le _ _) (by simpa using hlen))]
  constructor
  · intro h; exact (List.mem_filter.mp h).2
  · intro h
    refine List.mem_filter.mpr ⟨List.mem_range.mpr ?_, h⟩
    unfold childPred at h
    cases hg : s.get? j with
    | none => rw [hg] at h; cases h
    | some e => exact (List.get?_eq_some.mp hg).1

theorem childPred_false {s : List PendingScan} {path : List Char} {j : Nat}
    {e : PendingScan} (hg : s.get? j = some e) (hp : e.isPending = true)
    (h : childPred s path j = false) : isAncestor path e.path = false := by
  unfold childPred at h
  rw [hg] at h
  simpa [hp] using h

/-- `events_handle` preserves ancestor-dominance and the length bound. -/
theorem events_handle_inv (now d : Int) (p : List Char) (sid : Int)
    {s : List PendingScan} (hnd : NoDominance s) (hlen : s.length ≤ MAX_EVENT_FDS) :
    NoDominance (events_handle now d p sid s) ∧
      (events_handle now d p sid s).length ≤ MAX_EVENT_FDS := by
  unfold events_handle
  cases hpar : find_parent_pending_scan s p with
  | some i =>
    refine ⟨noDominance_of_liveMap (setScheduled_liveMap s i _) hnd, ?_⟩
    rw [setScheduled_length]; exact hlen
  | none =>
    have A1 : ∀ e ∈ s, e.isPending = true → isAncestor e.path p = false := by
      intro e he hp
      have h := scanFindIdx_eq_none hpar e he
      simpa [hp] using h
    cases hex : find_pending_scan s p with
    | some i =>
      refine ⟨noDominance_of_liveMap (setScheduled_liveMap s i _) hnd, ?_⟩
      rw [setScheduled_length]; exact hlen
    | none =>
      by_cases hc : find_child_pending_scans s p = []
      · -- no related pending scans
        have ChE : ∀ e ∈ s, e.isPending = true → isAncestor p e.path = false := by
          intro e he hp
          obtain ⟨j, hj⟩ := List.mem_iff_get?.mp he
          by_contra hanc
          have hpred : childPred s p j = true := by
            unfold childPred; rw [hj]
            simp [hp, bool_ne_false hanc]
          have hmem := (mem_children_iff hlen j).mpr hpred
          rw [hc] at hmem; cases hmem
        rw [if_pos hc]
        by_cases hfull : MAX_EVENT_FDS ≤ s.length
        · rw [if_pos hfull]
          refine ⟨noDominance_insert hnd A1 ?_, by rw [List.length_set]; exact hlen⟩
          intro e he hp
          rcases List.mem_or_eq_of_mem_set he with h | h
          · exact Or.inr ⟨e, h, hp, rfl, ChE e h hp⟩
          · subst h; exact Or.inl rfl
        · rw [if_neg hfull]
          refine ⟨noDominance_insert hnd A1 ?_, ?_⟩
          · intro e he hp
            rcases List.mem_append.mp he with h | h
            · exact Or.inr ⟨e, h, hp, rfl, ChE e h hp⟩
            · rw [List.mem_singleton] at h; subst h; exact Or.inl rfl
          · rw [List.length_append, List.length_singleton]; omega
      · rw [if_neg hc]
        by_cases hfull : MAX_EVENT_FDS ≤ s.length
        · rw [if_pos hfull]
          have hidxmem : (find_child_pending_scans s p).headD 0 ∈
              find_child_pending_scans s p := by
            cases hh : find_child_pending_scans s p with
            | nil => exact absurd hh hc
            | cons a t => simp
          set idx := (find_child_pending_scans s p).headD 0 with hidx
          have hidxlt : idx < s.length := by
            have hpred := (mem_children_iff hlen idx).mp hidxmem
            unfold childPred at hpred
            cases hg : s.get? idx with
            | none => rw [hg] at hpred; cases hpred
            | some e => exact (List.get?_eq_some.mp hg).1
          refine ⟨noDominance_insert hnd A1 ?_, ?_⟩
          · intro e he hp
            obtain ⟨j, hj⟩ := List.mem_iff_get?.mp he
            by_cases hin : j ∈ find_child_pending_scans s p ∧ j ≠ idx
            · rw [killChildren_get?_mem _ _ _ _ hin.1 hin.2] at hj
              cases hbg : (s.set idx (mkScan p sid now d)).get? j with
              | none => rw [hbg] at hj; cases hj
              | some e0 =>
                rw [hbg] at hj
                injection hj with hj
                rw [← hj] at hp
                cases hp
            · have hnm : j ∉ find_child_pending_scans s p ∨ j = idx := by tauto
              rw [killChildren_get?_not_mem _ _ _ _ hnm] at hj
              by_cases hji : j = idx
              · subst hji
                rw [List.get?_set_eq, List.get?_eq_get hidxlt] at hj
                injection hj with hj
                rw [← hj]
                exact Or.inl rfl
              · rw [List.get?_set_ne _ _ fun h => hji h.symm] at hj
                have hjnotch : j ∉ find_child_pending_scans s p := by tauto
                have hnotpred : childPred s p j = false := by
                  by_contra h
                  exact hjnotch ((mem_children_iff hlen j).mpr (bool_ne_false h))
                exact Or.inr ⟨e, List.get?_mem hj, hp, rfl,
                  childPred_false hj hp hnotpred⟩
          · rw [killChildren_length, List.length_set]; exact hlen
        · rw [if_neg hfull]
          refine ⟨noDominance_insert hnd A1 ?_, ?_⟩
          · intro e he hp
            obtain ⟨j, hj⟩ := List.mem_iff_get?.mp he
            have hchsub : ∀ k ∈ find_child_pending_scans s p, k < s.length := by
              intro k hk
              have hpred := (mem_children_iff hlen k).mp hk
              unfold childPred at hpred
              cases hg : s.get? k with
              | none => rw [hg] at hpred; cases hpred
              | some e0 => exact (List.get?_eq_some.mp hg).1
            by_cases hin : j ∈ find_child_pending_scans s p
            · have hne : j ≠ s.length := by
                have := hchsub j hin; omega
              rw [killChildren_get?_mem _ _ _ _ hin hne] at hj
              cases hbg : (s ++ [mkScan p sid now d]).get? j with
              | none => rw [hbg] at hj; cases hj
              | some e0 =>
                rw [hbg] at hj
                injection hj with hj
                rw [← hj] at hp
                cases hp
            · rw [killChildren_get?_not_mem _ _ _ _ (Or.inl hin)] at hj
              by_cases hji : j = s.length
              · subst hji
                rw [List.get?_concat_length] at hj
                injection hj with hj
                rw [← hj]
                exact Or.inl rfl
              · by_cases hjlt : j < s.length
                · rw [List.get?_append hjlt] at hj
                  have hnotpred : childPred s p j = false := by
                    by_contra h
                    exact hin ((mem_children_iff hlen j).mpr (bool_ne_false h))
                  exact Or.inr ⟨e, List.get?_mem hj, hp, rfl,
                    childPred_false hj hp hnotpred⟩
                · exfalso
                  have : (s ++ [mkScan p sid now d]).get? j = none := by
                    rw [List.get?_append_right (by omega)]
                    have : 1 ≤ j - s.length := by omega
                    cases hd : j - s.length with
                    | zero => omega
                    | succ n => simp
                  rw [this] at hj; cases hj
          · rw [killChildren_length, List.length_append, List.length_singleton]; omega

/-- `events_pending` preserves ancestor-dominance and the length bound. -/
theorem events_pending_inv (now : Int) {s : List PendingScan}
    (hnd : NoDominance s) (hlen : s.length ≤ MAX_EVENT_FDS) :
    NoDominance (events_pending now s) ∧
      (events_pending now s).length ≤ MAX_EVENT_FDS := by
  unfold events_pending
  have hmark : ∀ e ∈ s.map (fun e =>
      if e.isPending && decide (e.scheduledTime ≤ now)
      then { e with isPending := false } else e),
      e.isPending = true → ∃ e' ∈ s, e'.isPending = true ∧ e'.path = e.path := by
    intro e he hp
    obtain ⟨a, ha, hfa⟩ := List.mem_map.mp he
    by_cases hcnd : (a.isPending && decide (a.scheduledTime ≤ now)) = true
    · rw [if_pos hcnd] at hfa
      rw [← hfa] at hp
      cases hp
    · rw [if_neg hcnd] at hfa
      subst hfa
      exact ⟨a, ha, hp, rfl⟩
  split
  · constructor
    · refine noDominance_of_liveMap ?_ hnd
      intro e he hp
      exact hmark e (List.mem_of_mem_filter he) hp
    · calc _ ≤ (s.map _).length := List.length_filter_le _ _
        _ = s.length := by rw [List.length_map]
        _ ≤ _ := hlen
  · constructor
    · exact noDominance_of_liveMap hmark hnd
    · rw [List.length_map]; exact hlen

/-- The combined inductive invariant of the pending-scan table. -/
theorem reachable_inv {s : List PendingScan} (h : Reachable s) :
    NoDominance s ∧ s.length ≤ MAX_EVENT_FDS := by
  induction h with
  | init =>
    refine ⟨fun e he => absurd he (List.not_mem_nil e), ?_⟩
    simp [MAX_EVENT_FDS]
  | handle now debounce path sid _ ih => exact events_handle_inv now debounce path sid ih.1 ih.2
  | pending now _ ih => exact events_pending_inv now ih.1 ih.2

/-- C1: In every state of the pending-scan table reachable from the initial
empty table by any sequence of `events_handle` and `events_pending` calls,
no two live (`is_pending`) entries exist such that one entry's path is a
strict ancestor (slash-separated prefix) of the other entry's path. -/
theorem events_ancestor_dominance_invariant {s : List PendingScan}
    (h : Reachable s) : NoDominance s :=
  (reachable_inv h).1

/-- Witness for C1: the invariant holds at the concrete reachable state
produced by handling an event for `/m/A/s` followed by one for `/m/A`. -/
theorem events_ancestor_dominance_invariant_witness :
    NoDominance (events_handle 0 1 ['/', 'm', '/', 'A'] 1
      (events_handle 0 1 ['/', 'm', '/', 'A', '/', 's'] 1 [])) :=
  events_ancestor_dominance_invariant
    (Reachable.handle 0 1 ['/', 'm', '/', 'A'] 1
      (Reachable.handle 0 1 ['/', 'm', '/', 'A', '/', 's'] 1 Reachable.init))

/-! ### The next-deadline query (`next_scheduled_scan`) -/

/-- A pending entry that is already due at `now = 5`. -/
def dueEntry : PendingScan :=
  { path := ['/', 'a'], sectionId := 1, firstEventTime := 0,
    scheduledTime := 5, isPending := true }

/-- C2 counterexample: `next_scheduled_scan` does not return the earliest
`scheduled_time` of any live entry with 0 reserved for the empty case: at
`now = 5`, a table holding one live entry due exactly at 5 yields 0 even
though a live entry exists (the C loop only considers entries with
`scheduled_scan_time > now`). -/
theorem events_schedule_claim_counterexample :
    ¬(next_scheduled_scan 5 [dueEntry] = 0 ↔
      ∀ e ∈ [dueEntry], e.isPending = false) := by
  decide

theorem schedStep_of_cand {now : Int} {c : PendingScan} (a : Int)
    (hc : (c.isPending && decide (now < c.scheduledTime)) = true) :
    schedStep now a c =
      if a = 0 ∨ c.scheduledTime < a then c.scheduledTime else a := by
  unfold schedStep; rw [if_pos hc]

theorem schedStep_of_not_cand {now : Int} {c : PendingScan} (a : Int)
    (hc : ¬(c.isPending && decide (now < c.scheduledTime)) = true) :
    schedStep now a c = a := by
  unfold schedStep; rw [if_neg hc]

theorem schedFold_pos (now : Int) (hnow : 0 ≤ now) (l : List PendingScan) :
    ∀ a : Int, now < a →
      now < l.foldl (schedStep now) a ∧ l.foldl (schedStep now) a ≤ a := by
  induction l with
  | nil => intro a ha; exact ⟨ha, le_refl a⟩
  | cons c rest ih =>
    intro a ha
    rw [List.foldl_cons]
    by_cases hc : (c.isPending && decide (now < c.scheduledTime)) = true
    · rw [schedStep_of_cand a hc]
      have hsched : now < c.scheduledTime :=
        of_decide_eq_true ((Bool.and_eq_true _ _).mp hc).2
      by_cases hmin : a = 0 ∨ c.scheduledTime < a
      · rw [if_pos hmin]
        obtain ⟨h1, h2⟩ := ih c.scheduledTime hsched
        refine ⟨h1, le_trans h2 ?_⟩
        rcases hmin with h | h <;> omega
      · rw [if_neg hmin]
        exact ih a ha
    · rw [schedStep_of_not_cand a hc]
      exact ih a ha

theorem schedFold_zero (now : Int) (hnow : 0 ≤ now) (l : List PendingScan) :
    l.foldl (schedStep now) 0 = 0 ↔
      ∀ e ∈ l, e.isPending = true → e.scheduledTime ≤ now := by
  induction l with
  | nil => simp
  | cons c rest ih =>
    rw [List.foldl_cons]
    by_cases hc : (c.isPending && decide (now < c.scheduledTime)) = true
    · rw [schedStep_of_cand 0 hc, if_pos (Or.inl rfl)]
      have hsched : now < c.scheduledTime :=
        of_decide_eq_true ((Bool.and_eq_true _ _).mp hc).2
      have hpend : c.isPending = true := ((Bool.and_eq_true _ _).mp hc).1
      have hpos := schedFold_pos now hnow rest c.scheduledTime hsched
      constructor
      · intro h
        exfalso
        omega
      · intro h
        exact absurd (h c (List.mem_cons_self _ _) hpend) (by omega)
    · rw [schedStep_of_not_cand 0 hc, ih]
      constructor
      · intro h e he hp
        rcases List.mem_cons.mp he with he | he
        · subst he
          by_contra hgt
          exact hc (by simp [hp]; omega)
        · exact h e he hp
      · intro h e he hp
        exact h e (List.mem_cons_of_mem _ he) hp

theorem schedFold_mem (now : Int) (l : List PendingScan) :
    ∀ a : Int,
      l.foldl (schedStep now) a = a ∨
      ∃ e ∈ l, e.isPending = true ∧ now < e.scheduledTime ∧
        l.foldl (schedStep now) a = e.scheduledTime := by
  induction l with
  | nil => intro a; exact Or.inl rfl
  | cons c rest ih =>
    intro a
    rw [List.foldl_cons]
    by_cases hc : (c.isPending && decide (now < c.scheduledTime)) = true
    · rw [schedStep_of_cand a hc]
      have hpend : c.isPending = true := ((Bool.and_eq_true _ _).mp hc).1
      have hsched : now < c.scheduledTime :=
        of_decide_eq_true ((Bool.and_eq_true _ _).mp hc).2
      by_cases hmin : a = 0 ∨ c.scheduledTime < a
      · rw [if_pos hmin]
        rcases ih c.scheduledTime with h | ⟨e, he, h1, h2, h3⟩
        · exact Or.inr ⟨c, List.mem_cons_self _ _, hpend, hsched, h⟩
        · exact Or.inr ⟨e, List.mem_cons_of_mem _ he, h1, h2, h3⟩
      · rw [if_neg hmin]
        rcases ih a with h | ⟨e, he, h1, h2, h3⟩
        · exact Or.inl h
        · exact Or.inr ⟨e, List.mem_cons_of_mem _ he, h1, h2, h3⟩
    · rw [schedStep_of_not_cand a hc]
      rcases ih a with h | ⟨e, he, h1, h2, h3⟩
      · exact Or.inl h
      · exact Or.inr ⟨e, List.mem_cons_of_mem _ he, h1, h2, h3⟩

theorem schedFold_le (now : Int) (hnow : 0 ≤ now) (l : List PendingScan) :
    ∀ a : Int, a = 0 ∨ now < a →
      ∀ e ∈ l, e.isPending = true → now < e.scheduledTime →
        l.foldl (schedStep now) a ≤ e.scheduledTime := by
  induction l with
  | nil => intro a _ e he; cases he
  | cons c rest ih =>
    intro a ha e he hp hsched
    rw [List.foldl_cons]
    by_cases hc : (c.isPending && decide (now < c.scheduledTime)) = true
    · rw [schedStep_of_cand a hc]
      have hcs : now < c.scheduledTime :=
        of_decide_eq_true ((Bool.and_eq_true _ _).mp hc).2
      rcases List.mem_cons.mp he with he' | he'
      · subst he'
        by_cases hmin : a = 0 ∨ e.scheduledTime < a
        · rw [if_pos hmin]
          exact (schedFold_pos now hnow rest e.scheduledTime hsched).2
        · rw [if_neg hmin]
          have ha' : now < a := by
            rcases ha with h | h
            · exact absurd (Or.inl h) hmin
            · exact h
          refine le_trans (schedFold_pos now hnow rest a ha').2 ?_
          omega
      · by_cases hmin : a = 0 ∨ c.scheduledTime < a
        · rw [if_pos hmin]
          exact ih c.scheduledTime (Or.inr hcs) e he' hp hsched
        · rw [if_neg hmin]
          have ha' : now < a := by
            rcases ha with h | h
            · exact absurd (Or.inl h) hmin
            · exact h
          exact ih a (Or.inr ha') e he' hp hsched
    · rw [schedStep_of_not_cand a hc]
      rcases List.mem_cons.mp he with he' | he'
      · subst he'
        exact absurd (by simp [hp]; omega) hc
      · exact ih a ha e he' hp hsched

/-- C2 (amended): for `now ≥ 0`, `next_scheduled_scan` returns the earliest
`scheduled_time` strictly greater than `now` among the live entries, and
returns 0 exactly when no live entry has a deadline strictly in the
future (entries already due are ignored). -/
theorem events_schedule_spec (now : Int) (hnow : 0 ≤ now) (scans : List PendingScan) :
    (next_scheduled_scan now scans = 0 ↔
      ∀ e ∈ scans, e.isPending = true → e.scheduledTime ≤ now) ∧
    (next_scheduled_scan now scans ≠ 0 →
      (∃ e ∈ scans, e.isPending = true ∧ now < e.scheduledTime ∧
        e.scheduledTime = next_scheduled_scan now scans) ∧
      ∀ e ∈ scans, e.isPending = true → now < e.scheduledTime →
        next_scheduled_scan now scans ≤ e.scheduledTime) := by
  constructor
  · exact schedFold_zero now hnow scans
  · intro hne
    constructor
    · rcases schedFold_mem now scans 0 with h | ⟨e, he, h1, h2, h3⟩
      · exact absurd h hne
      · exact ⟨e, he, h1, h2, h3.symm⟩
    · exact schedFold_le now hnow scans 0 (Or.inl rfl)

/-- Witness for C2 (amended), at `now = 0` with one live entry due at 3. -/
theorem events_schedule_spec_witness :
    (0:Int) ≤ 0 ∧
    ((next_scheduled_scan 0 [mkScan ['/', 'a'] 1 0 3] = 0 ↔
      ∀ e ∈ [mkScan ['/', 'a'] 1 0 3], e.isPending = true → e.scheduledTime ≤ 0) ∧
    (next_scheduled_scan 0 [mkScan ['/', 'a'] 1 0 3] ≠ 0 →
      (∃ e ∈ [mkScan ['/', 'a'] 1 0 3], e.isPending = true ∧ 0 < e.scheduledTime ∧
        e.scheduledTime = next_scheduled_scan 0 [mkScan ['/', 'a'] 1 0 3]) ∧
      ∀ e ∈ [mkScan ['/', 'a'] 1 0 3], e.isPending = true → 0 < e.scheduledTime →
        next_scheduled_scan 0 [mkScan ['/', 'a'] 1 0 3] ≤ e.scheduledTime)) :=
  ⟨le_refl 0, events_schedule_spec 0 (le_refl 0) [mkScan ['/', 'a'] 1 0 3]⟩

/-! ### Deadline monotonicity -/

theorem mem_children_lt {s : List PendingScan} {path : List Char} {j : Nat}
    (hm : j ∈ find_child_pending_scans s path) : j < s.length := by
  have hf := List.take_subset _ _ hm
  exact List.mem_range.mp (List.mem_of_mem_filter hf)

theorem childPred_of_mem_children {s : List PendingScan} {path : List Char} {j : Nat}
    (hm : j ∈ find_child_pending_scans s path) : childPred s path j = true :=
  (List.mem_filter.mp (List.take_subset _ _ hm)).2

/-- Per-index effect of `events_handle`: an index is left unchanged, bumped
to the new deadline, marked not pending, or overwritten with the new scan. -/
theorem events_handle_get?_cases (now d : Int) (p : List Char) (sid : Int)
    (s : List PendingScan) (i : Nat) :
    (events_handle now d p sid s).get? i = s.get? i ∨
    (events_handle now d p sid s).get? i =
      (s.get? i).map (fun e => { e with scheduledTime := now + d }) ∨
    (events_handle now d p sid s).get? i =
      (s.get? i).map (fun e => { e with isPending := false }) ∨
    (events_handle now d p sid s).get? i = some (mkScan p sid now d) := by
  have hset : ∀ (i0 : Nat),
      (setScheduled s i0 (now + d)).get? i = s.get? i ∨
      (setScheduled s i0 (now + d)).get? i =
        (s.get? i).map (fun e => { e with scheduledTime := now + d }) := by
    intro i0
    unfold setScheduled
    cases hg : s.get? i0 with
    | none => exact Or.inl rfl
    | some e0 =>
      by_cases hii : i0 = i
      · subst hii
        rw [List.get?_set_eq, hg]
        exact Or.inr rfl
      · rw [List.get?_set_ne _ _ hii]
        exact Or.inl rfl
  unfold events_handle
  cases hpar : find_parent_pending_scan s p with
  | some i0 =>
    rcases hset i0 with h | h
    · exact Or.inl h
    · exact Or.inr (Or.inl h)
  | none =>
    cases hex : find_pending_scan s p with
    | some i0 =>
      rcases hset i0 with h | h
      · exact Or.inl h
      · exact Or.inr (Or.inl h)
    | none =>
      by_cases hc : find_child_pending_scans s p = []
      · rw [if_pos hc]
        by_cases hfull : MAX_EVENT_FDS ≤ s.length
        · rw [if_pos hfull]
          by_cases hio : find_oldest s now = i
          · rw [← hio, List.get?_set_eq]
            cases hg : s.get? (find_oldest s now) with
            | none => exact Or.inl rfl
            | some e0 => exact Or.inr (Or.inr (Or.inr rfl))
          · rw [List.get?_set_ne _ _ hio]
            exact Or.inl rfl
        · rw [if_neg hfull]
          rcases Nat.lt_trichotomy i s.length with hi | hi | hi
          · rw [List.get?_append hi]
            exact Or.inl rfl
          · subst hi
            rw [List.get?_concat_length]
            exact Or.inr (Or.inr (Or.inr rfl))
          · rw [List.get?_append_right (by omega)]
            have h1 : s.get? i = none := List.get?_eq_none.mpr (by omega)
            have h2 : [mkScan p sid now d].get? (i - s.length) = none :=
              List.get?_eq_none.mpr (by simp; omega)
            rw [h1, h2]
            exact Or.inl rfl
      · rw [if_neg hc]
        by_cases hfull : MAX_EVENT_FDS ≤ s.length
        · rw [if_pos hfull]
          by_cases hin : i ∈ find_child_pending_scans s p ∧
              i ≠ (find_child_pending_scans s p).headD 0
          · rw [killChildren_get?_mem _ _ _ _ hin.1 hin.2,
              List.get?_set_ne _ _ fun h => hin.2 h.symm]
            exact Or.inr (Or.inr (Or.inl rfl))
          · have hnm : i ∉ find_child_pending_scans s p ∨
                i = (find_child_pending_scans s p).headD 0 := by tauto
            rw [killChildren_get?_not_mem _ _ _ _ hnm]
            by_cases hii : (find_child_pending_scans s p).headD 0 = i
            · rw [← hii, List.get?_set_eq]
              cases hg : s.get? ((find_child_pending_scans s p).headD 0) with
              | none => exact Or.inl rfl
              | some e0 => exact Or.inr (Or.inr (Or.inr rfl))
            · rw [List.get?_set_ne _ _ hii]
              exact Or.inl rfl
        · rw [if_neg hfull]
          by_cases hin : i ∈ find_child_pending_scans s p
          · have hlt : i < s.length := mem_children_lt hin
            rw [killChildren_get?_mem _ _ _ _ hin (by omega),
              List.get?_append hlt]
            exact Or.inr (Or.inr (Or.inl rfl))
          · rw [killChildren_get?_not_mem _ _ _ _ (Or.inl hin)]
            rcases Nat.lt_trichotomy i s.length with hi | hi | hi
            · rw [List.get?_append hi]
              exact Or.inl rfl
            · subst hi
              rw [List.get?_concat_length]
              exact Or.inr (Or.inr (Or.inr rfl))
            · rw [List.get?_append_right (by omega)]
              have h1 : s.get? i = none := List.get?_eq_none.mpr (by omega)
              have h2 : [mkScan p sid now d].get? (i - s.length) = none :=
                List.get?_eq_none.mpr (by simp; omega)
              rw [h1, h2]
              exact Or.inl rfl

/-- Live entries surviving `events_pending` were already in the table. -/
theorem events_pending_live_mem (now : Int) {s : List PendingScan} :
    ∀ e ∈ events_pending now s, e.isPending = true → e ∈ s := by
  unfold events_pending
  intro e he hp
  have hmap : e ∈ s.map (fun e =>
      if e.isPending && decide (e.scheduledTime ≤ now)
      then { e with isPending := false } else e) := by
    by_cases hex : s.any (fun e => e.isPending && decide (e.scheduledTime ≤ now)) = true
    · rw [if_pos hex] at he
      exact List.mem_of_mem_filter he
    · rw [if_neg hex] at he
      exact he
  obtain ⟨a, ha, hfa⟩ := List.mem_map.mp hmap
  by_cases hcnd : (a.isPending && decide (a.scheduledTime ≤ now)) = true
  · rw [if_pos hcnd] at hfa
    rw [← hfa] at hp
    cases hp
  · rw [if_neg hcnd] at hfa
    subst hfa
    exact ha

/-- Every live entry's deadline is at most `now + d`. -/
def DeadlinesBounded (d now : Int) (scans : List PendingScan) : Prop :=
  ∀ e ∈ scans, e.isPending = true → e.scheduledTime ≤ now + d

/-- Timed reachability of the pending-scan table: the debounce interval `d`
(`g_config.scan_interval`) is fixed for the whole history, and the clock
readings passed to successive calls never decrease.  `EReach d now s` means
the table `s` is reachable with the clock currently reading at most `now`. -/
inductive EReach (d : Int) : Int → List PendingScan → Prop
  | init (now : Int) : EReach d now []
  | handle (now : Int) (p : List Char) (sid : Int) {now0 : Int} {s : List PendingScan} :
      EReach d now0 s → now0 ≤ now → EReach d now (events_handle now d p sid s)
  | fire (now : Int) {now0 : Int} {s : List PendingScan} :
      EReach d now0 s → now0 ≤ now → EReach d now (events_pending now s)
  | wait (now : Int) {now0 : Int} {s : List PendingScan} :
      EReach d now0 s → now0 ≤ now → EReach d now s

theorem events_handle_bounded {d now now1 : Int} {p : List Char} {sid : Int}
    {s : List PendingScan} (hb : DeadlinesBounded d now s) (hle : now ≤ now1) :
    DeadlinesBounded d now1 (events_handle now d p sid s) := by
  intro e he hp
  obtain ⟨i, hi⟩ := List.mem_iff_get?.mp he
  rcases events_handle_get?_cases now d p sid s i with h | h | h | h
  · rw [h] at hi
    have := hb e (List.get?_mem hi) hp
    omega
  · rw [h] at hi
    cases hg : s.get? i with
    | none => rw [hg] at hi; cases hi
    | some e0 =>
      rw [hg] at hi
      injection hi with hi
      rw [← hi]
      show now + d ≤ now1 + d
      omega
  · rw [h] at hi
    cases hg : s.get? i with
    | none => rw [hg] at hi; cases hi
    | some e0 =>
      rw [hg] at hi
      injection hi with hi
      rw [← hi] at hp
      cases hp
  · rw [h] at hi
    injection hi with hi
    rw [← hi]
    show now + d ≤ now1 + d
    omega

theorem ereach_bounded {d now : Int} {s : List PendingScan} (h : EReach d now s) :
    DeadlinesBounded d now s := by
  induction h with
  | init now => intro e he; cases he
  | handle now p sid hr hle ih =>
    refine events_handle_bounded ?_ (le_refl now)
    intro e he hp
    have := ih e he hp
    omega
  | fire now hr hle ih =>
    intro e he hp
    have := ih e (events_pending_live_mem now e he hp) hp
    omega
  | wait now hr hle ih =>
    intro e he hp
    have := ih e he hp
    omega

/-- C4 counterexample: the claim fails when a configuration reload lowers
`scan_interval` between two events.  An event at time 0 with interval 100
schedules the entry at 100; a second event for the same path at time 1
with interval 1 reschedules the still-pending entry to 2 < 100. -/
theorem monotone_deadlines_counterexample :
    ((events_handle 0 100 ['/', 'a'] 1 []).get? 0).map
        (fun e => (e.isPending, e.scheduledTime)) = some (true, 100) ∧
    ((events_handle 1 1 ['/', 'a'] 1 (events_handle 0 100 ['/', 'a'] 1 [])).get? 0).map
        (fun e => (e.isPending, e.scheduledTime)) = some (true, 2) ∧
    (2 : Int) < 100 := by
  decide

/-- C4 (amended): with a fixed `scan_interval` `d` and non-decreasing clock
readings (no configuration reload changes the interval), an `events_handle`
step never decreases the deadline of an entry that is live before and
after the step. -/
theorem monotone_deadlines_fixed_interval {d now0 now : Int}
    {s : List PendingScan} (h : EReach d now0 s) (hstep : now0 ≤ now)
    (p : List Char) (sid : Int) :
    ∀ (i : Nat) (e e' : PendingScan), s.get? i = some e →
      (events_handle now d p sid s).get? i = some e' →
      e.isPending = true → e'.isPending = true →
      e.scheduledTime ≤ e'.scheduledTime := by
  intro i e e' hg hg' hp hp'
  have hb : e.scheduledTime ≤ now + d := by
    have := (ereach_bounded h) e (List.get?_mem hg) hp
    omega
  rcases events_handle_get?_cases now d p sid s i with hcase | hcase | hcase | hcase
  · rw [hcase, hg] at hg'
    injection hg' with hg'
    rw [hg']
  · rw [hcase, hg] at hg'
    injection hg' with hg'
    rw [← hg']
    exact hb
  · rw [hcase, hg] at hg'
    injection hg' with hg'
    rw [← hg'] at hp'
    cases hp'
  · rw [hcase] at hg'
    injection hg' with hg'
    rw [← hg']
    exact hb

/-- Witness for C4 (amended): a concrete step at time 1 on the table
obtained by handling an event for `/a` at time 0, with interval 2. -/
theorem monotone_deadlines_fixed_interval_witness :
    (0 : Int) ≤ 1 ∧
    ∀ (i : Nat) (e e' : PendingScan),
      (events_handle 0 2 ['/', 'a'] 1 []).get? i = some e →
      (events_handle 1 2 ['/', 'a'] 1 (events_handle 0 2 ['/', 'a'] 1 [])).get? i = some e' →
      e.isPending = true → e'.isPending = true →
      e.scheduledTime ≤ e'.scheduledTime :=
  ⟨by decide,
    monotone_deadlines_fixed_interval
      (EReach.handle 0 ['/', 'a'] 1 (EReach.init 0) (le_refl 0))
      (by decide) ['/', 'a'] 1⟩

/-! ## Directory cache: `src/dircache.c` and `is_directory` of
`src/utilities.c` -/

/-- `PATH_MAX_LEN` from `plexmon.h`. -/
def PATH_MAX_LEN : Nat := 1024

/-- A directory entry as returned by `readdir`, together with the result
the `stat`-based classification of `utilities.c` would give for it.
`stat(2)` follows symbolic links, so for a symlink entry `statIsDir`
records whether the link's *target* is a directory; `none` models a
failing `stat`. -/
structure DirEnt where
  name : List Char
  isSymlink : Bool
  statIsDir : Option Bool
deriving DecidableEq

/-- `is_directory(full_path)` from `utilities.c` (lines 8-17): `stat` the
path and test `S_ISDIR`; `false` on stat failure.  The entry's `d_type` is
never consulted, so symlinks are resolved by `stat`. -/
def is_directory (e : DirEnt) : Bool := e.statIsDir.getD false

/-- A cached directory (`cached_dir_t`). -/
structure CachedDir where
  path : List Char
  mtime : Int
  subdirs : List (List Char)
  subdir_count : Int
  validated : Bool
deriving DecidableEq

/-- `snprintf(full_path, PATH_MAX_LEN, "%s/%s", path, entry->d_name)`. -/
def fullPath (dirPath name : List Char) : List Char :=
  dirPath ++ '/' :: name

/-- One iteration of the `readdir` loop of `sync_directory_tree`
(lines 184-245): skip `.` and `..`, skip over-long paths, and prepend the
full path of every entry classified as a directory by `is_directory`. -/
def collectStep (dirPath : List Char) (acc : List (List Char)) (e : DirEnt) :
    List (List Char) :=
  if e.name = ['.'] ∨ e.name = ['.', '.'] then acc
  else if PATH_MAX_LEN < dirPath.length + e.name.length + 2 then acc
  else if is_directory e then fullPath dirPath e.name :: acc else acc

/-- The subdirectory list built by the `readdir` loop (the C code prepends
each new entry, which the left fold reproduces). -/
def collect_subdirs (dirPath : List Char) (listing : List DirEnt) :
    List (List Char) :=
  listing.foldl (collectStep dirPath) []

/-- `sync_directory_tree(path, dir, changed)`: re-enumerate `path` and
diff against the cached entry.  `listing?` is the result of
`opendir`/`readdir` (`none` = `opendir` failed, in which case the C code
sets `*changed = true` and returns failure without touching `dir`);
`mtime2` is the value the `get_mtime(path)` call at lines 289/304 returns
*after* the enumeration.  The hash-table bookkeeping of the C code only
implements the set membership tests and is assumed not to fail; its
early-exit flag computes the same final Boolean as this disjunction
(the new-entry and removed-entry scans are guarded by `dir->validated`,
which is absorbed because `!dir->validated` already forces
`structure_changed`).  Returns (success, updated entry, changed). -/
def sync_directory_tree (listing? : Option (List DirEnt)) (mtime2 : Int)
    (path : List Char) (dir : CachedDir) : Bool × CachedDir × Bool :=
  match listing? with
  | none => (false, dir, true)
  | some listing =>
    let new_subdirs := collect_subdirs path listing
    let structure_changed :=
      !dir.validated ||
      new_subdirs.any (fun q => !(decide (q ∈ dir.subdirs))) ||
      !(decide ((new_subdirs.length : Int) = dir.subdir_count)) ||
      dir.subdirs.any (fun q => !(decide (q ∈ new_subdirs)))
    if structure_changed then
      (true,
        { dir with
            subdirs := new_subdirs,
            subdir_count := (new_subdirs.length : Int),
            mtime := mtime2,
            validated := true },
        true)
    else
      (true, { dir with mtime := mtime2 }, false)

/-- The cache's hash table (`dir_cache_htab`), as an association list. -/
abbrev DirCache : Type := List (List Char × CachedDir)

/-- `find_dir`: `hsearch_r(FIND)`. -/
def cfind : DirCache → List Char → Option CachedDir
  | [], _ => none
  | (k, d) :: rest, p => if k = p then some d else cfind rest p

/-- In-place mutation of the cached entry found for `p` (the C code holds
a pointer into the table). -/
def cupdate : DirCache → List Char → CachedDir → DirCache
  | [], _, _ => []
  | (k, d) :: rest, p, d' =>
    if k = p then (k, d') :: rest else (k, d) :: cupdate rest p d'

/-- `hsearch_r(ENTER)` for a key that is not present (the C code only
enters after a failed `FIND`). -/
def cinsert (cache : DirCache) (p : List Char) (d : CachedDir) : DirCache :=
  cache ++ [(p, d)]

/-- `dircache_refresh(path, changed)` (lines 319-398).  `mtime1` is the
result of the initial `get_mtime(path)` (0 = stat failure), `listing?`
the enumeration, and `mtime2` the re-read mtime after the enumeration.
Returns (success, updated cache, changed).  The `malloc`/`strdup`/hash
failures of the C code are assumed not to occur.  The fresh entry's
`mtime` field is uninitialized in C; it is set to 0 here, which never
escapes because a fresh entry is not `validated`, so a successful sync
always overwrites it. -/
def dircache_refresh (mtime1 : Int) (listing? : Option (List DirEnt))
    (mtime2 : Int) (cache : DirCache) (path : List Char) :
    Bool × DirCache × Bool :=
  if mtime1 = 0 then (false, cache, false)
  else
    match cfind cache path with
    | some dir =>
      if decide (dir.mtime ≠ mtime1) || !dir.validated then
        let r := sync_directory_tree listing? mtime2 path dir
        (r.1, cupdate cache path r.2.1, r.2.2)
      else (true, cache, false)
    | none =>
      let dir : CachedDir := { path := path, mtime := 0, subdirs := [],
                               subdir_count := 0, validated := false }
      let r := sync_directory_tree listing? mtime2 path dir
      (r.1, cinsert cache path r.2.1, r.2.2)

/-- `dircache_get_subdirs(path, count)` (lines 401-447): `NULL` when the
entry is absent, not validated, or has `subdir_count == 0`; otherwise a
copy of the first `subdir_count` entries of the subdirectory list
(allocation failures are assumed not to occur). -/
def dircache_get_subdirs (cache : DirCache) (path : List Char) :
    Option (List (List Char)) :=
  match cfind cache path with
  | none => none
  | some dir =>
    if !dir.validated then none
    else if dir.subdir_count = 0 then none
    else some (dir.subdirs.take dir.subdir_count.toNat)

/-! ### Cache lemmas and claims C3, C7, C8 -/

theorem cfind_cupdate_self (cache : DirCache) (p : List Char) (d d0 : CachedDir)
    (h : cfind cache p = some d0) : cfind (cupdate cache p d) p = some d := by
  induction cache with
  | nil => cases h
  | cons kv rest ih =>
    obtain ⟨k, v⟩ := kv
    by_cases hk : k = p
    · show cfind (if k = p then _ else _) p = _
      rw [if_pos hk]
      show (if k = p then some d else _) = some d
      rw [if_pos hk]
    · show cfind (if k = p then _ else _) p = _
      rw [if_neg hk]
      show (if k = p then some v else cfind (cupdate rest p d) p) = some d
      rw [if_neg hk]
      refine ih ?_
      have h' : (if k = p then some v else cfind rest p) = some d0 := h
      rwa [if_neg hk] at h'

theorem cfind_cinsert_self (cache : DirCache) (p : List Char) (d : CachedDir)
    (h : cfind cache p = none) : cfind (cinsert cache p d) p = some d := by
  unfold cinsert
  induction cache with
  | nil => show (if p = p then some d else cfind [] p) = some d; rw [if_pos rfl]
  | cons kv rest ih =>
    obtain ⟨k, v⟩ := kv
    have h' : (if k = p then some v else cfind rest p) = none := h
    by_cases hk : k = p
    · rw [if_pos hk] at h'; cases h'
    · rw [if_neg hk] at h'
      show (if k = p then some v else cfind (rest ++ [(p, d)]) p) = some d
      rw [if_neg hk]
      exact ih h'

/-- C3 counterexample: refreshing a previously uncached empty directory
whose mtime reads 1 before the enumeration and 2 after it succeeds and
stores mtime 2 — the re-read value, not the start value 1 the claim (and
the spec) require. -/
theorem refresh_mtime_counterexample :
    (dircache_refresh 1 (some []) 2 [] ['/', 'a']).1 = true ∧
    (cfind (dircache_refresh 1 (some []) 2 [] ['/', 'a']).2.1 ['/', 'a']).map
      (fun d => d.mtime) = some 2 ∧
    ((2 : Int) = 1 → False) := by
  decide

/-- The refresh of `path` re-enumerates (rather than taking the
mtime-equal shortcut): the entry is absent, or stale, or not validated. -/
def RefreshReenumerates (cache : DirCache) (path : List Char) (mtime1 : Int) : Prop :=
  ∀ dir, cfind cache path = some dir → dir.mtime ≠ mtime1 ∨ dir.validated = false

/-- C3 (amended): when the initial stat succeeds and the refresh
re-enumerates the directory, the stored mtime of the cache entry is the
mtime re-read *after* the enumeration (`mtime2`), not the start value. -/
theorem refresh_stores_reread_mtime (mtime1 mtime2 : Int) (listing : List DirEnt)
    (cache : DirCache) (path : List Char) (h1 : mtime1 ≠ 0)
    (h2 : RefreshReenumerates cache path mtime1)
    (hok : (dircache_refresh mtime1 (some listing) mtime2 cache path).1 = true) :
    (cfind (dircache_refresh mtime1 (some listing) mtime2 cache path).2.1 path).map
      (fun d => d.mtime) = some mtime2 := by
  unfold dircache_refresh
  rw [if_neg h1]
  cases hf : cfind cache path with
  | some dir =>
    have hcond : (decide (dir.mtime ≠ mtime1) || !dir.validated) = true := by
      rcases h2 dir hf with h | h
      · simp [h]
      · simp [h]
    dsimp only
    rw [if_pos hcond]
    unfold sync_directory_tree
    dsimp only
    split
    · rw [cfind_cupdate_self cache path _ dir hf]; rfl
    · rw [cfind_cupdate_self cache path _ dir hf]; rfl
  | none =>
    dsimp only
    unfold sync_directory_tree
    dsimp only
    split
    · rw [cfind_cinsert_self cache path _ hf]; rfl
    · rw [cfind_cinsert_self cache path _ hf]; rfl

/-- Witness for C3 (amended): the concrete instance of the
counterexample's refresh. -/
theorem refresh_stores_reread_mtime_witness :
    (1 : Int) ≠ 0 ∧ RefreshReenumerates [] ['/', 'a'] 1 ∧
    (dircache_refresh 1 (some []) 2 [] ['/', 'a']).1 = true ∧
    (cfind (dircache_refresh 1 (some []) 2 [] ['/', 'a']).2.1 ['/', 'a']).map
      (fun d => d.mtime) = some 2 := by
  refine ⟨by decide, ?_, rfl, ?_⟩
  · intro dir h
    simp [cfind] at h
  · exact refresh_stores_reread_mtime 1 2 [] [] ['/', 'a'] (by decide)
      (fun dir h => by simp [cfind] at h) rfl

/-- Members of the accumulator survive the rest of the collect fold. -/
theorem mem_collect_foldl_of_mem_acc (dirPath : List Char) (listing : List DirEnt)
    (acc : List (List Char)) (q : List Char) (h : q ∈ acc) :
    q ∈ listing.foldl (collectStep dirPath) acc := by
  induction listing generalizing acc with
  | nil => exact h
  | cons e rest ih =>
    rw [List.foldl_cons]
    refine ih (collectStep dirPath acc e) ?_
    unfold collectStep
    split
    · exact h
    · split
      · exact h
      · split
        · exact List.mem_cons_of_mem _ h
        · exact h

theorem mem_collect_subdirs_of_dir (dirPath : List Char) (listing : List DirEnt)
    (e : DirEnt) (hmem : e ∈ listing)
    (hdot : e.name ≠ ['.']) (hdotdot : e.name ≠ ['.', '.'])
    (hlen : dirPath.length + e.name.length + 2 ≤ PATH_MAX_LEN)
    (hdir : is_directory e = true) :
    fullPath dirPath e.name ∈ collect_subdirs dirPath listing := by
  unfold collect_subdirs
  suffices h : ∀ acc : List (List Char),
      fullPath dirPath e.name ∈ listing.foldl (collectStep dirPath) acc from h []
  induction listing with
  | nil => cases hmem
  | cons c rest ih =>
    intro acc
    rw [List.foldl_cons]
    rcases List.mem_cons.mp hmem with h | h
    · subst h
      refine mem_collect_foldl_of_mem_acc dirPath rest _ _ ?_
      unfold collectStep
      rw [if_neg (by tauto), if_neg (by omega), if_pos hdir]
      exact List.mem_cons_self _ _
    · exact ih h _

/-- A symlink entry whose target is a directory. -/
def symEnt : DirEnt := { name := ['b'], isSymlink := true, statIsDir := some true }

/-- C7 counterexample: during a refresh, a directory entry whose type is a
symbolic link pointing to a directory is *included* in the computed
subdirectory set (the `stat`-based `is_directory` follows the link),
contradicting the claim that symlinks are always skipped. -/
theorem symlink_skipped_counterexample :
    symEnt.isSymlink = true ∧
    (sync_directory_tree (some [symEnt]) 2 ['/', 'm']
      { path := ['/', 'm'], mtime := 0, subdirs := [], subdir_count := 0,
        validated := false }).1 = true ∧
    (sync_directory_tree (some [symEnt]) 2 ['/', 'm']
      { path := ['/', 'm'], mtime := 0, subdirs := [], subdir_count := 0,
        validated := false }).2.1.subdirs = [['/', 'm', '/', 'b']] := by
  decide

/-- C7 (amended): the refresh classifies entries by `stat`, which follows
symbolic links: a symlink entry whose target is a directory (and which is
not `.`/`..` and fits in `PATH_MAX_LEN`) is included in the computed
subdirectory set. -/
theorem refresh_follows_symlinked_directories (dirPath : List Char)
    (listing : List DirEnt) (e : DirEnt) (hmem : e ∈ listing)
    (hsym : e.isSymlink = true) (hstat : e.statIsDir = some true)
    (hdot : e.name ≠ ['.']) (hdotdot : e.name ≠ ['.', '.'])
    (hlen : dirPath.length + e.name.length + 2 ≤ PATH_MAX_LEN) :
    fullPath dirPath e.name ∈ collect_subdirs dirPath listing :=
  mem_collect_subdirs_of_dir dirPath listing e hmem hdot hdotdot hlen
    (by unfold is_directory; rw [hstat]; rfl)

/-- Witness for C7 (amended): the symlink-to-directory entry of the
counterexample listing is collected. -/
theorem refresh_follows_symlinked_directories_witness :
    symEnt ∈ [symEnt] ∧ symEnt.isSymlink = true ∧ symEnt.statIsDir = some true ∧
    symEnt.name ≠ ['.'] ∧ symEnt.name ≠ ['.', '.'] ∧
    (['/', 'm'] : List Char).length + symEnt.name.length + 2 ≤ PATH_MAX_LEN ∧
    fullPath ['/', 'm'] symEnt.name ∈ collect_subdirs ['/', 'm'] [symEnt] :=
  ⟨List.mem_cons_self _ _, rfl, rfl, by decide, by decide, by decide,
    refresh_follows_symlinked_directories ['/', 'm'] [symEnt] symEnt
      (List.mem_cons_self _ _) rfl rfl (by decide) (by decide) (by decide)⟩

/-- C8 counterexample: after a successful refresh of an empty directory,
the entry is validated with zero subdirectories, yet `dircache_get_subdirs`
returns `NULL` (`none`) rather than an empty sequence. -/
theorem subdirs_empty_counterexample :
    (dircache_refresh 1 (some []) 1 [] ['/', 'a']).1 = true ∧
    (cfind (dircache_refresh 1 (some []) 1 [] ['/', 'a']).2.1 ['/', 'a']).map
      (fun d => d.validated) = some true ∧
    dircache_get_subdirs (dircache_refresh 1 (some []) 1 [] ['/', 'a']).2.1 ['/', 'a']
      = none := by
  decide

/-- C8 (amended): the subdirs accessor returns `none` exactly when the
entry is absent, not yet validated, *or has zero subdirectories*; otherwise
it returns the stored list (truncated to `subdir_count` entries, as the C
copy loop does). -/
theorem dircache_get_subdirs_spec (cache : DirCache) (path : List Char) :
    dircache_get_subdirs cache path =
      match cfind cache path with
      | none => none
      | some dir =>
        if dir.validated = false ∨ dir.subdir_count = 0 then none
        else some (dir.subdirs.take dir.subdir_count.toNat) := by
  unfold dircache_get_subdirs
  cases cfind cache path with
  | none => rfl
  | some dir =>
    cases hv : dir.validated
    · simp [hv]
    · by_cases hc : dir.subdir_count = 0 <;> simp [hv, hc]

/-! ## Configuration: the `scan_interval` handling of `src/config.c`
(lines 54-56 and 105-109) and the defaults of `src/main.c` (lines 67-75) -/

/-- The numeric configuration fields relevant here. -/
structure ConfigNums where
  scan_interval : Int
  startup_timeout : Int
deriving DecidableEq

/-- The defaults `main` installs before `config_load` runs
(main.c line 71: `g_config.scan_interval = 10`). -/
def main_defaults : ConfigNums :=
  { scan_interval := 10, startup_timeout := 60 }

/-- Application of one parsed `key = value` line to the numeric fields;
`kv.2` is the `atoi` result for the right-hand side.  Other keys leave
these fields unchanged. -/
def config_apply_line (c : ConfigNums) (kv : List Char × Int) : ConfigNums :=
  if kv.1 = "scan_interval".toList then { c with scan_interval := kv.2 }
  else if kv.1 = "startup_timeout".toList then { c with startup_timeout := kv.2 }
  else c

/-- `config_load` restricted to the numeric fields: apply every parsed
line in file order, then run the validation of config.c lines 105-115:
`scan_interval < 1` falls back to **10** (the C warning reads
"Invalid scan_interval (%d), using default of 10s") and
`startup_timeout <= 0` falls back to 60. -/
def config_load (initial : ConfigNums) (lines : List (List Char × Int)) :
    ConfigNums :=
  let c := lines.foldl config_apply_line initial
  let c := if c.scan_interval < 1 then { c with scan_interval := 10 } else c
  if c.startup_timeout ≤ 0 then { c with startup_timeout := 60 } else c

/-- The last `scan_interval` value assigned while parsing, if any. -/
def scan_interval_value : List (List Char × Int) → Option Int
  | [] => none
  | kv :: rest =>
    match scan_interval_value rest with
    | some v => some v
    | none => if kv.1 = "scan_interval".toList then some kv.2 else none

/-- C9 counterexample: with `scan_interval` absent, and with
`scan_interval = 0` (which parses to an integer below 1), the effective
value after `config_load` is 10, not the documented default of 1. -/
theorem scan_interval_default_counterexample :
    (config_load main_defaults []).scan_interval = 10 ∧
    (config_load main_defaults [("scan_interval".toList, 0)]).scan_interval = 10 ∧
    ((10 : Int) = 1 → False) := by
  decide

theorem config_fold_scan_interval (lines : List (List Char × Int)) :
    ∀ c : ConfigNums,
      (lines.foldl config_apply_line c).scan_interval =
        (scan_interval_value lines).getD c.scan_interval := by
  induction lines with
  | nil => intro c; rfl
  | cons kv rest ih =>
    intro c
    rw [List.foldl_cons, ih]
    show _ = (match scan_interval_value rest with
      | some v => some v
      | none => if kv.1 = "scan_interval".toList then some kv.2 else none).getD
        c.scan_interval
    cases scan_interval_value rest with
    | some v => rfl
    | none =>
      unfold config_apply_line
      split_ifs <;> rfl

/-- C9 (amended): for every configuration input in which `scan_interval`
is absent or its (last) parsed value is below 1, the effective
`scan_interval` after `config_load` over `main`'s defaults is **10**
seconds, not 1. -/
theorem scan_interval_fallback (lines : List (List Char × Int))
    (h : ∀ v, scan_interval_value lines = some v → v < 1) :
    (config_load main_defaults lines).scan_interval = 10 := by
  have hsi := config_fold_scan_interval lines main_defaults
  unfold config_load
  dsimp only
  have hval : (lines.foldl config_apply_line main_defaults).scan_interval = 10 ∨
      (lines.foldl config_apply_line main_defaults).scan_interval < 1 := by
    cases hv : scan_interval_value lines with
    | none => rw [hv] at hsi; exact Or.inl hsi
    | some v =>
      rw [hv] at hsi
      refine Or.inr ?_
      rw [hsi]
      exact h v hv
  by_cases hlt : (lines.foldl config_apply_line main_defaults).scan_interval < 1
  · rw [if_pos hlt]
    split <;> rfl
  · rw [if_neg hlt]
    have h10 : (lines.foldl config_apply_line main_defaults).scan_interval = 10 := by
      rcases hval with h' | h'
      · exact h'
      · omega
    split
    · exact h10
    · exact h10

/-- Witness for C9 (amended): the empty configuration (key absent). -/
theorem scan_interval_fallback_witness :
    (∀ v : Int, scan_interval_value [] = some v → v < 1) ∧
    (config_load main_defaults []).scan_interval = 10 :=
  ⟨fun _ hv => (nomatch hv), scan_interval_fallback [] (fun _ hv => nomatch hv)⟩

/-! ## Watch registry: `src/monitor.c`

The registry state consists of the slot array `monitored_dirs` (whose
length is `dirs_capacity`), the free-list head `free_head`, the khash
path index `dirs_hash` (an association list here), and `active_count`.
The kqueue descriptor carries no state relevant to the claims.  System
calls and allocations made by `monitor_add` are modelled by an
environment record carrying their results. -/

/-- `INITIAL_MONITOR_CAPACITY` from `monitor.h`. -/
def INITIAL_MONITOR_CAPACITY : Nat := 256

/-- One slot of `monitored_dirs` (`monitored_dir_t`): `fd = -1` marks a
free slot. -/
structure MonSlot where
  fd : Int
  path : List Char
  sectionId : Int
  device : Int
  inode : Int
  nextFree : Int
deriving DecidableEq

/-- The watch registry's mutable state. -/
structure Registry where
  slots : List MonSlot
  freeHead : Int
  hash : List (List Char × Nat)
  activeCount : Int
deriving DecidableEq

/-- `kh_get`: look a path up in the hash index. -/
def hfind : List (List Char × Nat) → List Char → Option Nat
  | [], _ => none
  | (k, v) :: rest, p => if k = p then some v else hfind rest p

/-- `kh_put` followed by `kh_value(...) = v`: update the binding in place
when the key exists, otherwise add a binding. -/
def hput : List (List Char × Nat) → List Char → Nat → List (List Char × Nat)
  | [], p, v => [(p, v)]
  | (k, w) :: rest, p, v =>
    if k = p then (k, v) :: rest else (k, w) :: hput rest p v

/-- `kh_del` (preceded by freeing the key): drop the binding, if any. -/
def hdel : List (List Char × Nat) → List Char → List (List Char × Nat)
  | [], _ => []
  | (k, w) :: rest, p => if k = p then rest else (k, w) :: hdel rest p

/-- A slot as the `monitor_init` / resize loops initialize it: `fd = -1`
and a given `next_free` link (the other fields are uninitialized in C and
never read while the slot is free). -/
def freeSlot (next : Int) : MonSlot :=
  { fd := -1, path := [], sectionId := 0, device := 0, inode := 0, nextFree := next }

/-- The free-list slots built by `monitor_init` / the resize loop for
indices `first ..< first + count` (each links to its successor; the last
links to -1, relative to the final capacity `first + count`). -/
def initSlots (first count : Nat) : List MonSlot :=
  (List.range count).map fun k =>
    freeSlot (if first + k + 1 = first + count then -1 else (first + k + 1 : Int))

/-- The registry as `monitor_init` leaves it (lines 50-108). -/
def init_registry : Registry :=
  { slots := initSlots 0 INITIAL_MONITOR_CAPACITY, freeHead := 0,
    hash := [], activeCount := 0 }

/-- The registry as `monitor_cleanup` leaves it (lines 111-151): all
descriptors closed, storage freed, indices cleared. -/
def cleanup_registry : Registry :=
  { slots := [], freeHead := -1, hash := [], activeCount := 0 }

/-- `path_monitored` (lines 32-47): hash lookup plus a liveness check of
the found slot. -/
def path_monitored (reg : Registry) (path : List Char) : Int :=
  match hfind reg.hash path with
  | some index =>
    match reg.slots.get? index with
    | some s => if s.fd ≠ -1 then (index : Int) else -1
    | none => -1
  | none => -1

/-- `monitor_count` (lines 191-193). -/
def monitor_count (reg : Registry) : Int := reg.activeCount

/-- `monitor_remove(index)` (lines 196-223): bounds check, then — only if
the slot is active — close the descriptor, mark the slot free, unindex
its path, push it on the free list and decrement the count. -/
def monitor_remove (reg : Registry) (index : Int) : Registry :=
  if index < 0 ∨ (reg.slots.length : Int) ≤ index then reg
  else
    match reg.slots.get? index.toNat with
    | none => reg
    | some dir =>
      if dir.fd ≥ 0 then
        { slots := reg.slots.set index.toNat
            { dir with fd := -1, nextFree := reg.freeHead },
          freeHead := index,
          hash := hdel reg.hash dir.path,
          activeCount := reg.activeCount - 1 }
      else reg

/-- The result of the `stat(path)` calls made by `monitor_add` and
`monitor_validate`: `none` is a failing `stat`, otherwise the
`(st_dev, st_ino)` pair. -/
abbrev StatResult : Type := Option (Int × Int)

/-- `monitor_validate(path)` (lines 226-244): true iff the path is
indexed, its slot is active and the identity matches the given `stat`
result; otherwise the stale slot (if any) is removed.  Returns the
verdict and the possibly changed registry. -/
def monitor_validate (st : StatResult) (reg : Registry) (path : List Char) :
    Bool × Registry :=
  let index := path_monitored reg path
  if index = -1 then (false, reg)
  else
    match reg.slots.get? index.toNat with
    | none => (false, reg)
    | some dir =>
      match st with
      | some (dev, ino) =>
        if dir.fd ≥ 0 ∧ dev = dir.device ∧ ino = dir.inode then (true, reg)
        else (false, monitor_remove reg index)
      | none => (false, monitor_remove reg index)

/-- Results of the fallible operations `monitor_add` performs, in program
order: the validity-check `stat`, `realloc` when the free list is empty,
`open(path, O_RDONLY)` (the kernel returns a non-negative descriptor),
`fstat(fd)`, `strdup`, `kh_put`, and the `kevent` registration. -/
structure AddEnv where
  statPath : StatResult
  reallocOk : Bool
  openRes : Option Nat
  fstatRes : Option (Int × Int)
  strdupOk : Bool
  khputOk : Bool
  keventOk : Bool
deriving DecidableEq

/-- `monitor_add`, resize step (lines 283-304): when `free_head == -1`,
double the capacity (or create `INITIAL_MONITOR_CAPACITY` slots from
nothing), build the free list over the new tail, and point `free_head`
at the first new slot. -/
def growRegistry (reg : Registry) : Registry :=
  let oldCap := reg.slots.length
  let newCap := if oldCap > 0 then oldCap * 2 else INITIAL_MONITOR_CAPACITY
  { reg with
      slots := reg.slots ++ initSlots oldCap (newCap - oldCap),
      freeHead := (oldCap : Int) }

/-- `monitor_add`, steps after a free slot is known to exist (lines
306-374): pop the head of the free list, then `open`, `fstat`, `strdup`,
`kh_put`, fill the slot and register with kqueue.  On any failure after
the pop, the slot is pushed back on the free list (its `next_free` is
rewritten with the current `free_head`, which equals the value it already
holds) and `-1` is returned.  A nonsensical free head (negative but not
-1, or out of range) returns `-1` and leaves the registry unchanged; it
cannot occur in reachable states. -/
def add_alloc (env : AddEnv) (path : List Char) (sid : Int) (reg : Registry) :
    Int × Registry :=
  if reg.freeHead < 0 then (-1, reg)
  else
    match reg.slots.get? reg.freeHead.toNat with
    | none => (-1, reg)
    | some nd =>
      match env.openRes with
      | none =>
        (-1, { reg with
                slots := reg.slots.set reg.freeHead.toNat
                  { nd with nextFree := nd.nextFree },
                freeHead := (reg.freeHead.toNat : Int) })
      | some fd =>
        match env.fstatRes with
        | none =>
          (-1, { reg with
                  slots := reg.slots.set reg.freeHead.toNat
                    { nd with nextFree := nd.nextFree },
                  freeHead := (reg.freeHead.toNat : Int) })
        | some (dev, ino) =>
          if ¬env.strdupOk then
            (-1, { reg with
                    slots := reg.slots.set reg.freeHead.toNat
                      { nd with nextFree := nd.nextFree },
                    freeHead := (reg.freeHead.toNat : Int) })
          else if ¬env.khputOk then
            (-1, { reg with
                    slots := reg.slots.set reg.freeHead.toNat
                      { nd with nextFree := nd.nextFree },
                    freeHead := (reg.freeHead.toNat : Int) })
          else if ¬env.keventOk then
            (-1, { reg with
                    slots := reg.slots.set reg.freeHead.toNat
                      { fd := -1, path := path, sectionId := sid,
                        device := dev, inode := ino, nextFree := nd.nextFree },
                    freeHead := (reg.freeHead.toNat : Int),
                    hash := hdel (hput reg.hash path reg.freeHead.toNat) path })
          else
            ((reg.freeHead.toNat : Int),
              { slots := reg.slots.set reg.freeHead.toNat
                  { fd := (fd : Int), path := path, sectionId := sid,
                    device := dev, inode := ino, nextFree := nd.nextFree },
                freeHead := nd.nextFree,
                hash := hput reg.hash path reg.freeHead.toNat,
                activeCount := reg.activeCount + 1 })

/-- `monitor_add`, steps after the existing-slot check (lines 283-374):
resize when the free list is empty (returning `-1` if `realloc` fails),
then allocate and fill a slot via `add_alloc`. -/
def add_fresh (env : AddEnv) (path : List Char) (sid : Int) (reg0 : Registry) :
    Int × Registry :=
  if reg0.freeHead = -1 then
    if env.reallocOk then add_alloc env path sid (growRegistry reg0)
    else (-1, reg0)
  else add_alloc env path sid reg0

/-- `monitor_add(path, section_id)` (lines 266-374): the idempotence check
against an existing valid slot, stale-slot removal, then `add_fresh`. -/
def monitor_add (env : AddEnv) (path : List Char) (sid : Int) (reg : Registry) :
    Int × Registry :=
  let existing := path_monitored reg path
  if 0 ≤ existing then
    match reg.slots.get? existing.toNat with
    | some dir =>
      if dir.fd ≥ 0 ∧ env.statPath = some (dir.device, dir.inode) then
        (existing, reg)
      else
        add_fresh env path sid (monitor_remove reg existing)
    | none => add_fresh env path sid reg
  else add_fresh env path sid reg

/-! ### Hash-index and free-list lemmas -/

theorem hfind_hput_self (h : List (List Char × Nat)) (p : List Char) (v : Nat) :
    hfind (hput h p v) p = some v := by
  induction h with
  | nil => show (if p = p then some v else _) = some v; rw [if_pos rfl]
  | cons kv rest ih =>
    obtain ⟨k, w⟩ := kv
    by_cases hk : k = p
    · show hfind (if k = p then _ else _) p = some v
      rw [if_pos hk]
      show (if k = p then some v else _) = some v
      rw [if_pos hk]
    · show hfind (if k = p then _ else _) p = some v
      rw [if_neg hk]
      show (if k = p then some w else hfind (hput rest p v) p) = some v
      rw [if_neg hk]
      exact ih

theorem hdel_hput_of_not_found (h : List (List Char × Nat)) (p : List Char) (v : Nat)
    (hno : hfind h p = none) : hdel (hput h p v) p = h := by
  induction h with
  | nil => show (if p = p then [] else _) = []; rw [if_pos rfl]
  | cons kv rest ih =>
    obtain ⟨k, w⟩ := kv
    have hno' : (if k = p then some w else hfind rest p) = none := hno
    by_cases hk : k = p
    · rw [if_pos hk] at hno'; cases hno'
    · rw [if_neg hk] at hno'
      show hdel (if k = p then _ else _) p = _
      rw [if_neg hk]
      show (if k = p then hput rest p v else (k, w) :: hdel (hput rest p v) p) = _
      rw [if_neg hk, ih hno']

theorem initSlots_get? (first count k : Nat) (hk : k < count) :
    (initSlots first count).get? k =
      some (freeSlot (if first + k + 1 = first + count then -1
        else (first + k + 1 : Int))) := by
  unfold initSlots
  rw [List.get?_map, List.get?_range hk]
  rfl

theorem growRegistry_facts (reg : Registry) :
    (growRegistry reg).hash = reg.hash ∧
    (growRegistry reg).activeCount = reg.activeCount ∧
    0 ≤ (growRegistry reg).freeHead ∧
    ∃ nd, (growRegistry reg).slots.get? (growRegistry reg).freeHead.toNat =
      some nd ∧ nd.fd = -1 := by
  unfold growRegistry
  dsimp only
  refine ⟨rfl, rfl, by positivity, ?_⟩
  have hc : 0 < (if reg.slots.length > 0 then reg.slots.length * 2
      else INITIAL_MONITOR_CAPACITY) - reg.slots.length := by
    by_cases h : reg.slots.length > 0
    · rw [if_pos h]; omega
    · rw [if_neg h]
      have : INITIAL_MONITOR_CAPACITY = 256 := rfl
      omega
  rw [Int.toNat_ofNat]
  rw [List.get?_append_right (le_refl _), Nat.sub_self]
  rw [initSlots_get? _ _ 0 hc]
  exact ⟨_, rfl, rfl⟩

theorem path_monitored_of_hfind_none {reg : Registry} {p : List Char}
    (h : hfind reg.hash p = none) : path_monitored reg p = -1 := by
  unfold path_monitored
  rw [h]

theorem path_monitored_nonneg {reg : Registry} {p : List Char} {r : Int}
    (h : path_monitored reg p = r) (hr : 0 ≤ r) :
    hfind reg.hash p = some r.toNat ∧
      ∃ sl, reg.slots.get? r.toNat = some sl ∧ sl.fd ≠ -1 := by
  unfold path_monitored at h
  cases hh : hfind reg.hash p with
  | none =>
    rw [hh] at h
    dsimp only at h
    omega
  | some index =>
    rw [hh] at h
    dsimp only at h
    cases hg : reg.slots.get? index with
    | none =>
      rw [hg] at h
      dsimp only at h
      omega
    | some s =>
      rw [hg] at h
      dsimp only at h
      by_cases hfd : s.fd ≠ -1
      · rw [if_pos hfd] at h
        have hidx : r.toNat = index := by omega
        rw [hidx]
        exact ⟨rfl, s, hg, hfd⟩
      · rw [if_neg hfd] at h
        omega

/-- Success postcondition of `add_alloc`: the returned index is mapped by
the hash, and its slot is filled with an open descriptor and the path. -/
theorem add_alloc_success {env : AddEnv} {p : List Char} {sid : Int}
    {reg : Registry} {r : Int} {reg' : Registry}
    (h : add_alloc env p sid reg = (r, reg')) (hr : 0 ≤ r) :
    hfind reg'.hash p = some r.toNat ∧
      ∃ sl, reg'.slots.get? r.toNat = some sl ∧ 0 ≤ sl.fd ∧ sl.path = p := by
  unfold add_alloc at h
  split at h
  · injection h with h1 h2; omega
  · split at h
    · injection h with h1 h2; omega
    · rename_i nd hnd
      split at h
      · injection h with h1 h2; omega
      · rename_i fd hopen
        split at h
        · injection h with h1 h2; omega
        · rename_i dev ino hfstat
          split at h
          · injection h with h1 h2; omega
          · split at h
            · injection h with h1 h2; omega
            · split at h
              · injection h with h1 h2; omega
              · injection h with h1 h2
                subst h2
                have hidx : r.toNat = reg.freeHead.toNat := by omega
                dsimp only
                rw [hidx, hfind_hput_self]
                refine ⟨rfl, ?_⟩
                rw [List.get?_set_eq, hnd]
                refine ⟨_, rfl, ?_, rfl⟩
                show (0:Int) ≤ (fd : Int)
                positivity

/-- Success postcondition of `add_fresh`. -/
theorem add_fresh_success {env : AddEnv} {p : List Char} {sid : Int}
    {reg0 : Registry} {r : Int} {reg' : Registry}
    (h : add_fresh env p sid reg0 = (r, reg')) (hr : 0 ≤ r) :
    hfind reg'.hash p = some r.toNat ∧
      ∃ sl, reg'.slots.get? r.toNat = some sl ∧ 0 ≤ sl.fd ∧ sl.path = p := by
  unfold add_fresh at h
  split at h
  · split at h
    · exact add_alloc_success h hr
    · injection h with h1 h2; omega
  · exact add_alloc_success h hr

/-- Success postcondition of `monitor_add`. -/
theorem monitor_add_success {env : AddEnv} {p : List Char} {sid : Int}
    {reg : Registry} {r : Int} {reg' : Registry}
    (h : monitor_add env p sid reg = (r, reg')) (hr : 0 ≤ r) :
    hfind reg'.hash p = some r.toNat ∧
      ∃ sl, reg'.slots.get? r.toNat = some sl ∧ 0 ≤ sl.fd := by
  unfold monitor_add at h
  dsimp only at h
  split at h
  · rename_i hex
    cases hg : reg.slots.get? (path_monitored reg p).toNat with
    | some dir =>
      rw [hg] at h
      dsimp only at h
      split at h
      · rename_i hvalid
        injection h with h1 h2
        subst h2
        obtain ⟨hh, _, _, _⟩ := path_monitored_nonneg h1 hr
        rw [h1] at hg
        exact ⟨hh, dir, hg, hvalid.1⟩
      · obtain ⟨hh, sl, hs1, hs2, _⟩ := add_fresh_success h hr
        exact ⟨hh, sl, hs1, hs2⟩
    | none =>
      rw [hg] at h
      dsimp only at h
      obtain ⟨hh, sl, hs1, hs2, _⟩ := add_fresh_success h hr
      exact ⟨hh, sl, hs1, hs2⟩
  · obtain ⟨hh, sl, hs1, hs2, _⟩ := add_fresh_success h hr
    exact ⟨hh, sl, hs1, hs2⟩

/-- C5: `monitor_add` is idempotent.  If a first `monitor_add(p, s)`
succeeds, returning slot `idx` and registry state `reg1`, and `p`'s
`(device, inode)` identity is unchanged (the second call's `stat` returns
the stored pair), then a second `monitor_add(p, s)` returns the same slot
index and leaves the registry state identical (`reg1` again). -/
theorem monitor_add_idempotent (env1 env2 : AddEnv) (p : List Char) (sid : Int)
    (reg reg1 : Registry) (idx : Int) (sl : MonSlot)
    (h1 : monitor_add env1 p sid reg = (idx, reg1)) (hidx : 0 ≤ idx)
    (hsl : reg1.slots.get? idx.toNat = some sl)
    (hstat : env2.statPath = some (sl.device, sl.inode)) :
    monitor_add env2 p sid reg1 = (idx, reg1) := by
  obtain ⟨hh, sl', hsl', hfd⟩ := monitor_add_success h1 hidx
  rw [hsl] at hsl'
  injection hsl' with hsl'
  subst hsl'
  have hpm : path_monitored reg1 p = idx := by
    unfold path_monitored
    rw [hh]
    dsimp only
    rw [hsl]
    dsimp only
    rw [if_pos (by omega : sl.fd ≠ -1)]
    exact Int.toNat_of_nonneg hidx
  unfold monitor_add
  dsimp only
  rw [hpm, if_pos hidx, hsl]
  dsimp only
  rw [if_pos ⟨hfd, hstat⟩]

/-- The all-success environment used by the witnesses. -/
def addEnvOK : AddEnv :=
  { statPath := none
    reallocOk := true
    openRes := some 3
    fstatRes := some (7, 9)
    strdupOk := true
    khputOk := true
    keventOk := true }

/-- The same environment, with the path's identity unchanged: `stat`
returns the `(device, inode)` pair captured by the first add. -/
def addEnvSame : AddEnv := { addEnvOK with statPath := some (7, 9) }

/-- The slot contents after the witness's first `monitor_add`. -/
def slotWitness : MonSlot :=
  { fd := 3, path := ['/', 'a'], sectionId := 1, device := 7, inode := 9,
    nextFree := 1 }

/-- Witness for C5: a concrete first add into the freshly initialized
registry, followed by a second add with unchanged identity. -/
theorem monitor_add_idempotent_witness :
    monitor_add addEnvOK ['/', 'a'] 1 init_registry =
      ((0 : Int), (monitor_add addEnvOK ['/', 'a'] 1 init_registry).2) ∧
    (0 : Int) ≤ 0 ∧
    (monitor_add addEnvOK ['/', 'a'] 1 init_registry).2.slots.get? 0 =
      some slotWitness ∧
    addEnvSame.statPath = some (slotWitness.device, slotWitness.inode) ∧
    monitor_add addEnvSame ['/', 'a'] 1
        (monitor_add addEnvOK ['/', 'a'] 1 init_registry).2 =
      ((0 : Int), (monitor_add addEnvOK ['/', 'a'] 1 init_registry).2) :=
  ⟨rfl, le_refl 0, rfl, rfl,
    monitor_add_idempotent addEnvOK addEnvSame ['/', 'a'] 1 init_registry
      (monitor_add addEnvOK ['/', 'a'] 1 init_registry).2 0 slotWitness
      rfl (le_refl 0) rfl rfl⟩

/-- Well-formedness of the free-list head: either the list is empty
(`free_head == -1`) or the head indexes an existing free slot.  This holds
in every reachable registry state. -/
def FreeHeadOK (reg : Registry) : Prop :=
  reg.freeHead = -1 ∨
    (0 ≤ reg.freeHead ∧
      ∃ nd, reg.slots.get? reg.freeHead.toNat = some nd ∧ nd.fd = -1)

/-- Failure atomicity of the allocation stage: under any post-allocation
failure, `add_alloc` returns -1, leaves the hash index and the active
count unchanged, and the allocated slot is back at the head of the free
list with `fd = -1`. -/
theorem add_alloc_failure (env : AddEnv) (p : List Char) (sid : Int)
    (reg : Registry) (hge : 0 ≤ reg.freeHead) {nd : MonSlot}
    (hnd : reg.slots.get? reg.freeHead.toNat = some nd) (hndfd : nd.fd = -1)
    (hno : hfind reg.hash p = none)
    (hfail : env.openRes = none ∨ env.fstatRes = none ∨ env.strdupOk = false ∨
      env.khputOk = false ∨ env.keventOk = false) :
    (add_alloc env p sid reg).1 = -1 ∧
    (add_alloc env p sid reg).2.hash = reg.hash ∧
    (add_alloc env p sid reg).2.activeCount = reg.activeCount ∧
    (add_alloc env p sid reg).2.freeHead = (reg.freeHead.toNat : Int) ∧
    ∃ nd', (add_alloc env p sid reg).2.slots.get? reg.freeHead.toNat = some nd' ∧
      nd'.fd = -1 := by
  cases hopen : env.openRes with
  | none =>
    have h : add_alloc env p sid reg =
        (-1, { reg with
                slots := reg.slots.set reg.freeHead.toNat
                  { nd with nextFree := nd.nextFree },
                freeHead := (reg.freeHead.toNat : Int) }) := by
      unfold add_alloc
      rw [if_neg (by omega), hnd, hopen]
    rw [h]
    exact ⟨rfl, rfl, rfl, rfl, _, by rw [List.get?_set_eq, hnd]; rfl, hndfd⟩
  | some fd =>
    cases hfstat : env.fstatRes with
    | none =>
      have h : add_alloc env p sid reg =
          (-1, { reg with
                  slots := reg.slots.set reg.freeHead.toNat
                    { nd with nextFree := nd.nextFree },
                  freeHead := (reg.freeHead.toNat : Int) }) := by
        unfold add_alloc
        rw [if_neg (by omega), hnd, hopen, hfstat]
      rw [h]
      exact ⟨rfl, rfl, rfl, rfl, _, by rw [List.get?_set_eq, hnd]; rfl, hndfd⟩
    | some di =>
      obtain ⟨dev, ino⟩ := di
      by_cases hsd : env.strdupOk = true
      · by_cases hkp : env.khputOk = true
        · by_cases hkv : env.keventOk = true
          · exfalso
            rcases hfail with h | h | h | h | h
            · rw [hopen] at h; cases h
            · rw [hfstat] at h; cases h
            · rw [hsd] at h; cases h
            · rw [hkp] at h; cases h
            · rw [hkv] at h; cases h
          · have h : add_alloc env p sid reg =
                (-1, { reg with
                        slots := reg.slots.set reg.freeHead.toNat
                          { fd := -1, path := p, sectionId := sid,
                            device := dev, inode := ino, nextFree := nd.nextFree },
                        freeHead := (reg.freeHead.toNat : Int),
                        hash := hdel (hput reg.hash p reg.freeHead.toNat) p }) := by
              unfold add_alloc
              rw [if_neg (by omega), hnd, hopen, hfstat]
              dsimp only
              rw [if_neg (not_not_intro hsd), if_neg (not_not_intro hkp),
                if_pos hkv]
            rw [h]
            refine ⟨rfl, ?_, rfl, rfl, _, by rw [List.get?_set_eq, hnd]; rfl, rfl⟩
            exact hdel_hput_of_not_found reg.hash p _ hno
        · have h : add_alloc env p sid reg =
              (-1, { reg with
                      slots := reg.slots.set reg.freeHead.toNat
                        { nd with nextFree := nd.nextFree },
                      freeHead := (reg.freeHead.toNat : Int) }) := by
            unfold add_alloc
            rw [if_neg (by omega), hnd, hopen, hfstat]
            dsimp only
            rw [if_neg (not_not_intro hsd), if_pos hkp]
          rw [h]
          exact ⟨rfl, rfl, rfl, rfl, _, by rw [List.get?_set_eq, hnd]; rfl, hndfd⟩
      · have h : add_alloc env p sid reg =
            (-1, { reg with
                    slots := reg.slots.set reg.freeHead.toNat
                      { nd with nextFree := nd.nextFree },
                    freeHead := (reg.freeHead.toNat : Int) }) := by
          unfold add_alloc
          rw [if_neg (by omega), hnd, hopen, hfstat]
          dsimp only
          rw [if_pos hsd]
        rw [h]
        exact ⟨rfl, rfl, rfl, rfl, _, by rw [List.get?_set_eq, hnd]; rfl, hndfd⟩

/-- C6: `monitor_add` failure atomicity.  For a path that is not yet
indexed, under any failure occurring after a free slot has been allocated
(open, fstat, key allocation, hash insert, or kqueue registration),
`monitor_add` returns -1, the path is absent from the path index (which
is unchanged), `active_count` is unchanged, and the allocated slot is
back at the head of the free list with `fd = -1`. -/
theorem monitor_add_failure_atomic (env : AddEnv) (p : List Char) (sid : Int)
    (reg : Registry) (hno : hfind reg.hash p = none) (hfh : FreeHeadOK reg)
    (hre : env.reallocOk = true)
    (hfail : env.openRes = none ∨ env.fstatRes = none ∨ env.strdupOk = false ∨
      env.khputOk = false ∨ env.keventOk = false) :
    (monitor_add env p sid reg).1 = -1 ∧
    (monitor_add env p sid reg).2.hash = reg.hash ∧
    (monitor_add env p sid reg).2.activeCount = reg.activeCount ∧
    ∃ (n : Nat) (nd : MonSlot), (monitor_add env p sid reg).2.freeHead = (n : Int) ∧
      (monitor_add env p sid reg).2.slots.get? n = some nd ∧ nd.fd = -1 := by
  have hpm := path_monitored_of_hfind_none hno
  have hstep : monitor_add env p sid reg = add_fresh env p sid reg := by
    unfold monitor_add
    dsimp only
    rw [hpm, if_neg (by omega : ¬(0:Int) ≤ -1)]
  rw [hstep]
  unfold add_fresh
  rcases hfh with hfh | ⟨hge, nd, hnd, hndfd⟩
  · rw [if_pos hfh, if_pos hre]
    obtain ⟨ghash, gcount, ghead, gnd, hgnd, hgfd⟩ := growRegistry_facts reg
    have hgno : hfind (growRegistry reg).hash p = none := by rw [ghash]; exact hno
    obtain ⟨a1, a2, a3, a4, nd', a5, a6⟩ :=
      add_alloc_failure env p sid (growRegistry reg) ghead hgnd hgfd hgno hfail
    refine ⟨a1, ?_, ?_, (growRegistry reg).freeHead.toNat, nd', a4, a5, a6⟩
    · rw [a2, ghash]
    · rw [a3, gcount]
  · rw [if_neg (by omega : ¬reg.freeHead = -1)]
    obtain ⟨a1, a2, a3, a4, nd', a5, a6⟩ :=
      add_alloc_failure env p sid reg hge hnd hndfd hno hfail
    exact ⟨a1, a2, a3, reg.freeHead.toNat, nd', a4, a5, a6⟩

/-- An environment in which the `open` call fails. -/
def addEnvOpenFail : AddEnv := { addEnvOK with openRes := none }

/-- Witness for C6: an `open` failure on the freshly initialized
registry. -/
theorem monitor_add_failure_atomic_witness :
    hfind init_registry.hash ['/', 'a'] = none ∧
    FreeHeadOK init_registry ∧
    addEnvOpenFail.reallocOk = true ∧
    (addEnvOpenFail.openRes = none ∨ addEnvOpenFail.fstatRes = none ∨
      addEnvOpenFail.strdupOk = false ∨ addEnvOpenFail.khputOk = false ∨
      addEnvOpenFail.keventOk = false) ∧
    ((monitor_add addEnvOpenFail ['/', 'a'] 1 init_registry).1 = -1 ∧
    (monitor_add addEnvOpenFail ['/', 'a'] 1 init_registry).2.hash =
      init_registry.hash ∧
    (monitor_add addEnvOpenFail ['/', 'a'] 1 init_registry).2.activeCount =
      init_registry.activeCount ∧
    ∃ (n : Nat) (nd : MonSlot),
      (monitor_add addEnvOpenFail ['/', 'a'] 1 init_registry).2.freeHead =
        (n : Int) ∧
      (monitor_add addEnvOpenFail ['/', 'a'] 1 init_registry).2.slots.get? n =
        some nd ∧ nd.fd = -1) :=
  ⟨rfl, Or.inr ⟨by decide, freeSlot 1, rfl, rfl⟩, rfl, Or.inl rfl,
    monitor_add_failure_atomic addEnvOpenFail ['/', 'a'] 1 init_registry
      rfl (Or.inr ⟨by decide, freeSlot 1, rfl, rfl⟩) rfl (Or.inl rfl)⟩

/-! ### The active-count invariant (C10) -/

/-- The number of slots whose file descriptor field is valid
(`fd != -1`). -/
def liveCount (l : List MonSlot) : Nat :=
  (l.filter (fun s => decide (s.fd ≠ -1))).length

/-- `FreeRepr slots fl head`: `fl` lists, in order, the slot indices on
the intrusive free list starting at `head`; each is in range, holds
`fd = -1`, and links to the rest via its `next_free` field. -/
def FreeRepr (slots : List MonSlot) : List Nat → Int → Prop
  | [], h => h = -1
  | i :: rest, h =>
    h = (i : Int) ∧ ∃ nd, slots.get? i = some nd ∧ nd.fd = -1 ∧
      FreeRepr slots rest nd.nextFree

/-- The free list is well represented and `active_count` equals the
number of live slots. -/
def RegInv (reg : Registry) : Prop :=
  (∃ fl, FreeRepr reg.slots fl reg.freeHead ∧ fl.Nodup) ∧
    reg.activeCount = (liveCount reg.slots : Int)

/-- Registry states reachable from `monitor_init` by any sequence of
`monitor_add`, `monitor_remove`, `monitor_validate` and `monitor_cleanup`
calls (with arbitrary system-call outcomes). -/
inductive RegReach : Registry → Prop
  | init : RegReach init_registry
  | add (env : AddEnv) (p : List Char) (sid : Int) {r : Registry} :
      RegReach r → RegReach (monitor_add env p sid r).2
  | remove (i : Int) {r : Registry} : RegReach r → RegReach (monitor_remove r i)
  | validate (st : StatResult) (p : List Char) {r : Registry} :
      RegReach r → RegReach (monitor_validate st r p).2
  | cleanup {r : Registry} : RegReach r → RegReach cleanup_registry

theorem liveCount_cons (c : MonSlot) (rest : List MonSlot) :
    liveCount (c :: rest) = (if c.fd ≠ -1 then 1 else 0) + liveCount rest := by
  unfold liveCount
  by_cases hc : c.fd ≠ -1
  · rw [if_pos hc]
    rw [List.filter_cons_of_pos (by simpa using hc)]
    simp [Nat.add_comm]
  · rw [if_neg hc]
    rw [List.filter_cons_of_neg (by simpa using hc)]
    simp

theorem liveCount_set (l : List MonSlot) :
    ∀ (i : Nat) (a b : MonSlot), l.get? i = some b →
      (liveCount (l.set i a) : Int) =
        (liveCount l : Int) - (if b.fd ≠ -1 then 1 else 0) +
          (if a.fd ≠ -1 then 1 else 0) := by
  induction l with
  | nil => intro i a b h; cases h
  | cons c rest ih =>
    intro i a b h
    cases i with
    | zero =>
      injection h with h
      subst h
      show (liveCount (a :: rest) : Int) = _
      rw [liveCount_cons, liveCount_cons]
      by_cases hb : c.fd ≠ -1 <;> by_cases ha : a.fd ≠ -1 <;>
        simp [hb, ha] <;> push_cast <;> omega
    | succ i =>
      show (liveCount (c :: rest.set i a) : Int) = _
      rw [liveCount_cons, liveCount_cons]
      have := ih i a b h
      by_cases hc : c.fd ≠ -1 <;> simp [hc] <;> push_cast <;> push_cast at this <;> omega

theorem liveCount_append (l1 l2 : List MonSlot) :
    liveCount (l1 ++ l2) = liveCount l1 + liveCount l2 := by
  unfold liveCount
  rw [List.filter_append, List.length_append]

theorem liveCount_initSlots (first count : Nat) :
    liveCount (initSlots first count) = 0 := by
  unfold liveCount
  rw [List.length_eq_zero]
  rw [List.filter_eq_nil]
  intro a ha
  obtain ⟨k, _, hk⟩ := List.mem_map.mp ha
  rw [← hk]
  simp [freeSlot]

theorem list_set_same {α : Type} (l : List α) :
    ∀ (i : Nat) (a : α), l.get? i = some a → l.set i a = l := by
  induction l with
  | nil => intro i a h; cases h
  | cons c rest ih =>
    intro i a h
    cases i with
    | zero => injection h with h; rw [← h]; rfl
    | succ i =>
      show c :: rest.set i a = c :: rest
      rw [ih i a h]

theorem freeRepr_mem {slots : List MonSlot} :
    ∀ {fl : List Nat} {h : Int}, FreeRepr slots fl h →
      ∀ i ∈ fl, ∃ nd, slots.get? i = some nd ∧ nd.fd = -1 := by
  intro fl
  induction fl with
  | nil => intro h _ i hi; cases hi
  | cons n rest ih =>
    intro h hrep i hi
    obtain ⟨_, nd, hget, hfd, hrest⟩ := hrep
    rcases List.mem_cons.mp hi with hi | hi
    · subst hi; exact ⟨nd, hget, hfd⟩
    · exact ih hrest i hi

theorem freeRepr_set_not_mem {slots : List MonSlot} {j : Nat} {a : MonSlot} :
    ∀ {fl : List Nat} {h : Int}, j ∉ fl → FreeRepr slots fl h →
      FreeRepr (slots.set j a) fl h := by
  intro fl
  induction fl with
  | nil => intro h _ hrep; exact hrep
  | cons n rest ih =>
    intro h hj hrep
    obtain ⟨heq, nd, hget, hfd, hrest⟩ := hrep
    have hjn : j ≠ n := fun hh => hj (hh ▸ List.mem_cons_self _ _)
    refine ⟨heq, nd, ?_, hfd, ih (fun hh => hj (List.mem_cons_of_mem _ hh)) hrest⟩
    rw [List.get?_set_ne _ _ hjn]
    exact hget

theorem freeRepr_of_neg {slots : List MonSlot} {fl : List Nat}
    (h : FreeRepr slots fl (-1)) : fl = [] := by
  cases fl with
  | nil => rfl
  | cons n rest =>
    obtain ⟨heq, _⟩ := h
    omega

/-- Consecutive index segments. -/
def idxList : Nat → Nat → List Nat
  | _, 0 => []
  | a, k + 1 => a :: idxList (a + 1) k

theorem mem_idxList : ∀ (k a n : Nat), n ∈ idxList a k ↔ a ≤ n ∧ n < a + k := by
  intro k
  induction k with
  | zero =>
    intro a n
    show n ∈ ([] : List Nat) ↔ _
    simp
  | succ k ih =>
    intro a n
    show n ∈ a :: idxList (a + 1) k ↔ _
    rw [List.mem_cons, ih (a + 1) n]
    omega

theorem nodup_idxList : ∀ (k a : Nat), (idxList a k).Nodup := by
  intro k
  induction k with
  | zero => intro a; exact List.nodup_nil
  | succ k ih =>
    intro a
    show (a :: idxList (a + 1) k).Nodup
    refine List.nodup_cons.mpr ⟨?_, ih (a + 1)⟩
    rw [mem_idxList]
    omega

theorem freeRepr_chain (slots : List MonSlot) :
    ∀ (k a : Nat),
      (∀ j, j < k → ∃ nd, slots.get? (a + j) = some nd ∧ nd.fd = -1 ∧
        nd.nextFree = (if j + 1 = k then -1 else ((a + j + 1 : Nat) : Int))) →
      FreeRepr slots (idxList a k) (if k = 0 then (-1 : Int) else (a : Int)) := by
  intro k
  induction k with
  | zero =>
    intro a _
    show FreeRepr slots [] (-1)
    rfl
  | succ k ih =>
    intro a hh
    rw [if_neg (Nat.succ_ne_zero k)]
    show FreeRepr slots (a :: idxList (a + 1) k) (a : Int)
    obtain ⟨nd, hget, hfd, hnext⟩ := hh 0 (Nat.succ_pos k)
    rw [Nat.add_zero] at hget hnext
    refine ⟨rfl, nd, hget, hfd, ?_⟩
    have hrest := ih (a + 1) ?_
    · have heq : nd.nextFree = (if k = 0 then (-1 : Int) else ((a + 1 : Nat) : Int)) := by
        by_cases hk : k = 0
        · rw [hnext, if_pos (by omega), if_pos hk]
        · rw [hnext, if_neg (by omega), if_neg hk]
      rw [heq]
      exact hrest
    · intro j hj
      obtain ⟨nd', hget', hfd', hnext'⟩ := hh (j + 1) (by omega)
      have hidx : a + (j + 1) = a + 1 + j := by omega
      rw [hidx] at hget' hnext'
      refine ⟨nd', hget', hfd', ?_⟩
      by_cases hjk : j + 1 = k
      · rw [hnext', if_pos (by omega), if_pos hjk]
      · rw [hnext', if_neg (by omega), if_neg hjk]

theorem initSlots_chain (pre : List MonSlot) (first count : Nat)
    (hpre : pre.length = first) :
    ∀ j, j < count →
      ∃ nd, (pre ++ initSlots first count).get? (first + j) = some nd ∧
        nd.fd = -1 ∧
        nd.nextFree = (if j + 1 = count then -1 else ((first + j + 1 : Nat) : Int)) := by
  intro j hj
  rw [List.get?_append_right (by omega), hpre, Nat.add_sub_cancel_left]
  rw [initSlots_get? first count j hj]
  refine ⟨_, rfl, rfl, ?_⟩
  show (if first + j + 1 = first + count then (-1 : Int) else ((first + j + 1 : Nat) : Int)) = _
  by_cases hc : j + 1 = count
  · rw [if_pos (by omega), if_pos hc]
  · rw [if_neg (by omega), if_neg hc]

theorem regInv_init : RegInv init_registry := by
  constructor
  · refine ⟨idxList 0 INITIAL_MONITOR_CAPACITY, ?_, nodup_idxList _ _⟩
    have hch := freeRepr_chain (initSlots 0 INITIAL_MONITOR_CAPACITY)
      INITIAL_MONITOR_CAPACITY 0 ?_
    · rw [if_neg (by decide)] at hch
      exact hch
    · intro j hj
      have h := initSlots_chain [] 0 INITIAL_MONITOR_CAPACITY rfl j hj
      rw [List.nil_append] at h
      exact h
  · show (0 : Int) = _
    rw [show init_registry.slots = initSlots 0 INITIAL_MONITOR_CAPACITY from rfl,
      liveCount_initSlots]
    rfl

theorem regInv_cleanup : RegInv cleanup_registry := by
  exact ⟨⟨[], rfl, List.nodup_nil⟩, rfl⟩

theorem regInv_grow {reg : Registry} (hinv : RegInv reg) :
    RegInv (growRegistry reg) := by
  obtain ⟨_, hcount⟩ := hinv
  constructor
  · refine ⟨idxList reg.slots.length
      ((if reg.slots.length > 0 then reg.slots.length * 2
        else INITIAL_MONITOR_CAPACITY) - reg.slots.length), ?_, nodup_idxList _ _⟩
    have hk : 0 < (if reg.slots.length > 0 then reg.slots.length * 2
        else INITIAL_MONITOR_CAPACITY) - reg.slots.length := by
      by_cases h : reg.slots.length > 0
      · rw [if_pos h]; omega
      · rw [if_neg h]
        have h256 : INITIAL_MONITOR_CAPACITY = 256 := rfl
        omega
    have hch := freeRepr_chain
      (reg.slots ++ initSlots reg.slots.length
        ((if reg.slots.length > 0 then reg.slots.length * 2
          else INITIAL_MONITOR_CAPACITY) - reg.slots.length))
      ((if reg.slots.length > 0 then reg.slots.length * 2
        else INITIAL_MONITOR_CAPACITY) - reg.slots.length)
      reg.slots.length
      (initSlots_chain reg.slots reg.slots.length
        ((if reg.slots.length > 0 then reg.slots.length * 2
          else INITIAL_MONITOR_CAPACITY) - reg.slots.length) rfl)
    rw [if_neg (Nat.pos_iff_ne_zero.mp hk)] at hch
    exact hch
  · show reg.activeCount = _
    rw [show (growRegistry reg).slots = reg.slots ++ initSlots reg.slots.length
      ((if reg.slots.length > 0 then reg.slots.length * 2
        else INITIAL_MONITOR_CAPACITY) - reg.slots.length) from rfl]
    rw [liveCount_append, liveCount_initSlots, Nat.add_zero]
    exact hcount

theorem regInv_remove {reg : Registry} (hinv : RegInv reg) (i : Int) :
    RegInv (monitor_remove reg i) := by
  obtain ⟨⟨fl, hrep, hnd⟩, hcount⟩ := hinv
  unfold monitor_remove
  split
  · exact ⟨⟨fl, hrep, hnd⟩, hcount⟩
  · rename_i hrange
    push_neg at hrange
    cases hg : reg.slots.get? i.toNat with
    | none => exact ⟨⟨fl, hrep, hnd⟩, hcount⟩
    | some dir =>
      dsimp only
      split
      · rename_i hfd
        have hnotin : i.toNat ∉ fl := by
          intro hin
          obtain ⟨nd, hnd', hfd'⟩ := freeRepr_mem hrep i.toNat hin
          rw [hg] at hnd'
          injection hnd' with hnd'
          rw [← hnd'] at hfd'
          omega
        constructor
        · refine ⟨i.toNat :: fl, ⟨(Int.toNat_of_nonneg hrange.1).symm,
            { dir with fd := -1, nextFree := reg.freeHead }, ?_, rfl,
            freeRepr_set_not_mem hnotin hrep⟩,
            List.nodup_cons.mpr ⟨hnotin, hnd⟩⟩
          rw [List.get?_set_eq, hg]
          rfl
        · show reg.activeCount - 1 = _
          have hset := liveCount_set reg.slots i.toNat
            { dir with fd := -1, nextFree := reg.freeHead } dir hg
          rw [hset, if_pos (by omega : dir.fd ≠ -1), if_neg (by simp : ¬({ dir with fd := -1, nextFree := reg.freeHead } : MonSlot).fd ≠ -1)]
          omega
      · exact ⟨⟨fl, hrep, hnd⟩, hcount⟩

theorem regInv_add_alloc (env : AddEnv) (p : List Char) (sid : Int)
    {reg : Registry} (hinv : RegInv reg) :
    RegInv (add_alloc env p sid reg).2 := by
  obtain ⟨⟨fl, hrep, hnd⟩, hcount⟩ := hinv
  unfold add_alloc
  split
  · exact ⟨⟨fl, hrep, hnd⟩, hcount⟩
  · rename_i hge
    push_neg at hge
    cases hg : reg.slots.get? reg.freeHead.toNat with
    | none => exact ⟨⟨fl, hrep, hnd⟩, hcount⟩
    | some nd =>
      dsimp only
      have hflcons : ∃ rest, fl = reg.freeHead.toNat :: rest := by
        cases fl with
        | nil =>
          have h1 : reg.freeHead = -1 := hrep
          omega
        | cons n rest =>
          obtain ⟨heq, _⟩ := hrep
          exact ⟨rest, by rw [show n = reg.freeHead.toNat by omega]⟩
      obtain ⟨rest, hfl⟩ := hflcons
      subst hfl
      obtain ⟨heq, nd2, hget2, hfd2, hrest⟩ := hrep
      rw [hg] at hget2
      injection hget2 with hget2
      subst hget2
      have hnotin : reg.freeHead.toNat ∉ rest := (List.nodup_cons.mp hnd).1
      have hndrest : rest.Nodup := (List.nodup_cons.mp hnd).2
      have hregsame :
          ({ reg with
              slots := reg.slots.set reg.freeHead.toNat
                { nd with nextFree := nd.nextFree },
              freeHead := (reg.freeHead.toNat : Int) } : Registry) = reg := by
        rw [show ({ nd with nextFree := nd.nextFree } : MonSlot) = nd from rfl,
          list_set_same reg.slots reg.freeHead.toNat nd hg,
          Int.toNat_of_nonneg hge]
      have hinv0 : RegInv reg :=
        ⟨⟨reg.freeHead.toNat :: rest,
          ⟨heq, nd, hg, hfd2, hrest⟩, hnd⟩, hcount⟩
      cases hopen : env.openRes with
      | none =>
        dsimp only
        rw [hregsame]
        exact hinv0
      | some fd =>
        cases hfstat : env.fstatRes with
        | none =>
          dsimp only
          rw [hregsame]
          exact hinv0
        | some di =>
          obtain ⟨dev, ino⟩ := di
          dsimp only
          split
          · rw [hregsame]; exact hinv0
          · split
            · rw [hregsame]; exact hinv0
            · split
              · -- kqueue registration failure: the filled slot is killed
                dsimp only
                refine ⟨⟨reg.freeHead.toNat :: rest,
                  ⟨rfl,
                    { fd := -1
                      path := p
                      sectionId := sid
                      device := dev
                      inode := ino
                      nextFree := nd.nextFree }, ?_, rfl,
                    freeRepr_set_not_mem hnotin hrest⟩,
                  List.nodup_cons.mpr ⟨hnotin, hndrest⟩⟩, ?_⟩
                · rw [List.get?_set_eq, hg]
                  rfl
                · show reg.activeCount = _
                  have hset := liveCount_set reg.slots reg.freeHead.toNat
                    { fd := -1
                      path := p
                      sectionId := sid
                      device := dev
                      inode := ino
                      nextFree := nd.nextFree } nd hg
                  dsimp only at hset
                  rw [hset, if_neg (by omega : ¬nd.fd ≠ -1),
                    if_neg (by omega : ¬(-1 : Int) ≠ -1)]
                  omega
              · -- success
                dsimp only
                refine ⟨⟨rest, freeRepr_set_not_mem hnotin hrest, hndrest⟩, ?_⟩
                show reg.activeCount + 1 = _
                have hset := liveCount_set reg.slots reg.freeHead.toNat
                  { fd := ((fd : Nat) : Int)
                    path := p
                    sectionId := sid
                    device := dev
                    inode := ino
                    nextFree := nd.nextFree } nd hg
                dsimp only at hset
                rw [hset, if_neg (by omega : ¬nd.fd ≠ -1),
                  if_pos (by omega : ((fd : Nat) : Int) ≠ -1)]
                omega

theorem regInv_add_fresh (env : AddEnv) (p : List Char) (sid : Int)
    {reg : Registry} (hinv : RegInv reg) :
    RegInv (add_fresh env p sid reg).2 := by
  unfold add_fresh
  split
  · split
    · exact regInv_add_alloc env p sid (regInv_grow hinv)
    · exact hinv
  · exact regInv_add_alloc env p sid hinv

theorem regInv_monitor_add (env : AddEnv) (p : List Char) (sid : Int)
    {reg : Registry} (hinv : RegInv reg) :
    RegInv (monitor_add env p sid reg).2 := by
  unfold monitor_add
  dsimp only
  split
  · cases hg : reg.slots.get? (path_monitored reg p).toNat with
    | none => exact regInv_add_fresh env p sid hinv
    | some dir =>
      dsimp only
      split
      · exact hinv
      · exact regInv_add_fresh env p sid (regInv_remove hinv _)
  · exact regInv_add_fresh env p sid hinv

theorem regInv_validate (st : StatResult) (p : List Char) {reg : Registry}
    (hinv : RegInv reg) : RegInv (monitor_validate st reg p).2 := by
  unfold monitor_validate
  dsimp only
  split
  · exact hinv
  · cases hg : reg.slots.get? (path_monitored reg p).toNat with
    | none => exact hinv
    | some dir =>
      dsimp only
      cases st with
      | none => exact regInv_remove hinv _
      | some di =>
        obtain ⟨dev, ino⟩ := di
        dsimp only
        split
        · exact hinv
        · exact regInv_remove hinv _

theorem regReach_inv {r : Registry} (h : RegReach r) : RegInv r := by
  induction h with
  | init => exact regInv_init
  | add env p sid _ ih => exact regInv_monitor_add env p sid ih
  | remove i _ ih => exact regInv_remove ih i
  | validate st p _ ih => exact regInv_validate st p ih
  | cleanup _ _ => exact regInv_cleanup

/-- C10: in every registry state reachable from `monitor_init` by any
sequence of `monitor_add`, `monitor_remove`, `monitor_validate` and
`monitor_cleanup` calls, `monitor_count` equals the number of slots whose
file descriptor field is valid (`fd != -1`). -/
theorem monitor_count_live_slots {r : Registry} (h : RegReach r) :
    monitor_count r = (liveCount r.slots : Int) :=
  (regReach_inv h).2

/-- Witness for C10: the state after one successful `monitor_add` on the
freshly initialized registry. -/
theorem monitor_count_live_slots_witness :
    monitor_count (monitor_add addEnvOK ['/', 'a'] 1 init_registry).2 =
      (liveCount (monitor_add addEnvOK ['/', 'a'] 1 init_registry).2.slots : Int) :=
  monitor_count_live_slots
    (RegReach.add addEnvOK ['/', 'a'] 1 RegReach.init)

end Plexmon
